import Mathlib

/-!
Verification development for the hashline-opencode edit engine.

The engine (hash-anchored batch editing of a text file) is shallowly embedded
below.  Pure TypeScript functions become Lean functions on `List String`
(one element per physical line); functions that `throw` become functions into
`Except String _`; the JavaScript `Map` (insertion ordered, set-in-place)
becomes an association list with the same update discipline.

Files `edit-application` (apply functions and the batch orchestrator),
`autocorrect-replacement-lines` and `edit-sorting` are translated from the
source.  The repository's `validation.ts`, `edit-text-normalization.ts` and
`hash-computation.ts` are not in the source tree; the corresponding
definitions are modelled from the specification and are marked as such in
their doc comments.
-/

namespace Hashline

/-! ### Character-level line splitting and joining

`content.split("\n")` and `lines.join("\n")` are embedded at the character
level so that their round-trip behaviour is provable. -/

/-- Split a character list at every occurrence of `sep`; `acc` holds the
(reversed) characters of the current segment. -/
def splitCharAux (sep : Char) : List Char → List Char → List (List Char)
  | [], acc => [acc.reverse]
  | c :: cs, acc =>
    if c = sep then acc.reverse :: splitCharAux sep cs []
    else splitCharAux sep cs (c :: acc)

/-- JavaScript `s.split(sep)` for a single-character separator. -/
def splitChar (sep : Char) (s : String) : List String :=
  (splitCharAux sep s.data []).map fun l => ⟨l⟩

/-- `content.split("\n")`. -/
def splitNl (s : String) : List String := splitChar '\n' s

/-- The orchestrator's `content.length === 0 ? [] : content.split("\n")`. -/
def splitContent (content : String) : List String :=
  if content = "" then [] else splitNl content

/-- Join character lists with `sep` between them (JavaScript `join`). -/
def joinCharAux (sep : Char) : List (List Char) → List Char
  | [] => []
  | [l] => l
  | l :: ls => l ++ sep :: joinCharAux sep ls

/-- `lines.join("\n")`. -/
def joinLines (ls : List String) : String :=
  ⟨joinCharAux '\n' (ls.map String.data)⟩

theorem splitCharAux_ne_nil (sep : Char) (cs acc : List Char) :
    splitCharAux sep cs acc ≠ [] := by
  induction cs generalizing acc with
  | nil => simp [splitCharAux]
  | cons c cs ih =>
    simp only [splitCharAux]
    split <;> simp [ih]

theorem joinCharAux_splitCharAux (sep : Char) (cs acc : List Char) :
    joinCharAux sep (splitCharAux sep cs acc) = acc.reverse ++ cs := by
  induction cs generalizing acc with
  | nil => simp [splitCharAux, joinCharAux]
  | cons c cs ih =>
    simp only [splitCharAux]
    by_cases h : c = sep
    · rw [if_pos h, h]
      cases hsp : splitCharAux sep cs ([] : List Char) with
      | nil => exact absurd hsp (splitCharAux_ne_nil sep cs [])
      | cons x xs =>
        have hih := ih ([] : List Char)
        rw [hsp] at hih
        simp only [List.reverse_nil, List.nil_append] at hih
        have hstep : joinCharAux sep (acc.reverse :: x :: xs) =
            acc.reverse ++ sep :: joinCharAux sep (x :: xs) := rfl
        rw [hstep, hih]
    · rw [if_neg h, ih (c :: acc)]
      simp

theorem join_split_roundtrip (s : String) : joinLines (splitNl s) = s := by
  have h : (splitNl s).map String.data = splitCharAux '\n' s.data [] := by
    simp only [splitNl, splitChar, List.map_map]
    have : (String.data ∘ fun l => (⟨l⟩ : String)) = id := by
      funext l; rfl
    simp [this]
  have h2 : joinLines (splitNl s) = ⟨joinCharAux '\n' (splitCharAux '\n' s.data [])⟩ := by
    rw [joinLines, h]
  rw [h2, joinCharAux_splitCharAux]
  simp

theorem joinLines_splitContent (content : String) :
    joinLines (splitContent content) = content := by
  rw [splitContent]
  by_cases h : content = ""
  · subst h; rfl
  · rw [if_neg h, join_split_roundtrip]

/-- Segments produced by `splitCharAux` never contain the separator,
provided the accumulator does not. -/
theorem splitCharAux_no_sep (sep : Char) (cs acc : List Char)
    (hacc : sep ∉ acc) :
    ∀ l ∈ splitCharAux sep cs acc, sep ∉ l := by
  induction cs generalizing acc with
  | nil =>
    intro l hl
    rw [splitCharAux, List.mem_singleton] at hl
    subst hl
    simpa using hacc
  | cons c cs ih =>
    intro l hl
    simp only [splitCharAux] at hl
    by_cases h : c = sep
    · rw [if_pos h] at hl
      rcases List.mem_cons.mp hl with hl | hl
      · subst hl; simpa using hacc
      · exact ih [] (by simp) l hl
    · rw [if_neg h] at hl
      refine ih (c :: acc) ?_ l hl
      simp only [List.mem_cons, not_or]
      exact ⟨fun hc : sep = c => h hc.symm, hacc⟩

theorem splitNl_elem_no_newline (s : String) :
    ∀ l ∈ splitNl s, '\n' ∉ l.data := by
  intro l hl
  simp only [splitNl, splitChar, List.mem_map] at hl
  obtain ⟨cl, hcl, rfl⟩ := hl
  exact splitCharAux_no_sep '\n' s.data [] (by simp) cl hcl

theorem splitContent_elem_no_newline (content : String) :
    ∀ l ∈ splitContent content, '\n' ∉ l.data := by
  intro l hl
  rw [splitContent] at hl
  by_cases h : content = ""
  · rw [if_pos h] at hl; simp at hl
  · rw [if_neg h] at hl; exact splitNl_elem_no_newline content l hl

/-- Splitting a separator-free character list yields a single segment. -/
theorem splitCharAux_of_no_sep (sep : Char) (cs acc : List Char)
    (h : sep ∉ cs) : splitCharAux sep cs acc = [acc.reverse ++ cs] := by
  induction cs generalizing acc with
  | nil => simp [splitCharAux]
  | cons c cs ih =>
    simp only [List.mem_cons, not_or] at h
    have hcs : ¬c = sep := fun hc => h.1 hc.symm
    simp only [splitCharAux, if_neg hcs]
    rw [ih (c :: acc) h.2]
    simp

theorem splitNl_of_no_newline (s : String) (h : '\n' ∉ s.data) :
    splitNl s = [s] := by
  simp only [splitNl, splitChar, splitCharAux_of_no_sep '\n' s.data [] h]
  simp

/-! ### Kernel-computable string primitives

`String.toNat?`, `String.trim` and `String.endsWith` are implemented in core
over string iterators and do not reduce in the kernel; the embedding uses
the following character-level equivalents. -/

/-- `String.toNat?`: a non-empty all-digit string parses to its value. -/
def digitsToNat (cs : List Char) : Option Nat :=
  if cs.isEmpty then none
  else if cs.all (fun c => c.isDigit) then
    some (cs.foldl (fun acc c => acc * 10 + (c.toNat - 48)) 0)
  else none

/-- JavaScript `text.trim()`: drop leading and trailing whitespace. -/
def jsTrim (s : String) : String :=
  ⟨((s.data.dropWhile fun c => c.isWhitespace).reverse.dropWhile fun c =>
    c.isWhitespace).reverse⟩

/-- `s.endsWith(suffix)`. -/
def endsWithStr (s suffixStr : String) : Bool :=
  suffixStr.data.isSuffixOf s.data

/-! ### Data model -/

theorem except_bind_ok {ε α β : Type} (a : α) (f : α → Except ε β) :
    (Except.ok a >>= f : Except ε β) = f a := rfl

theorem except_bind_error {ε α β : Type} (e : ε) (f : α → Except ε β) :
    (Except.error e >>= f : Except ε β) = .error e := rfl

deriving instance DecidableEq for Except

/-- The `text-or-lines` payload of an edit: a single string (to be split on
newlines) or an already-split ordered sequence of lines. -/
inductive TextLines where
  | str (s : String)
  | arr (ls : List String)
deriving DecidableEq

/-- The tagged edit variant (`types.ts`): `replace` with an optional inclusive
range end, `append` / `prepend` with an optional anchor (absent means the
whole-file operation). -/
inductive HashlineEdit where
  | replace (pos : String) (endPos : Option String) (lines : TextLines)
  | append (pos : Option String) (lines : TextLines)
  | prepend (pos : Option String) (lines : TextLines)
deriving DecidableEq

/-- `EditApplyOptions` of the applier. -/
structure EditApplyOptions where
  skipValidation : Option Bool
deriving DecidableEq

def shouldValidate (options : Option EditApplyOptions) : Bool :=
  !(((options.map fun o => o.skipValidation).getD none) == some true)

/-- The report returned by `applyHashlineEditsWithReport`. -/
structure HashlineApplyReport where
  content : String
  noopEdits : Nat
  deduplicatedEdits : Nat
deriving DecidableEq

/-! ### Text normalization helpers

`edit-text-normalization.ts` is not in the source tree; the definitions in
this section are modelled from the specification. -/

/-- Modelled from the spec: `toNewLines` turns a `text-or-lines` payload into
a line list — a string is split on newline (the empty string yields the empty
list, so that an empty payload triggers the empty-insert-text failure), an
already-split sequence is taken as given. -/
def toNewLines : TextLines → List String
  | .str s => if s = "" then [] else splitNl s
  | .arr ls => ls

/-- JavaScript `/^\s*/` match: the longest leading run of whitespace. -/
def leadingWhitespaceOf (s : String) : String :=
  ⟨s.data.takeWhile fun c => c.isWhitespace⟩

/-- Modelled from the spec: `restoreLeadingIndent` restores the original
line's leading indentation onto a corrected line that has none of its own. -/
def restoreLeadingIndent (original line : String) : String :=
  if line ≠ "" ∧ leadingWhitespaceOf line = "" then
    leadingWhitespaceOf original ++ line
  else line

/-- Modelled from the spec: drop a leading inserted line that merely echoes
the anchor line it is inserted after. -/
def stripInsertAnchorEcho (anchorLine : String) (newLines : List String) :
    List String :=
  match newLines with
  | l :: tl => if l = anchorLine then tl else newLines
  | [] => []

/-- Modelled from the spec: drop a trailing inserted line that merely echoes
the anchor line it is inserted before. -/
def stripInsertBeforeEcho (anchorLine : String) (newLines : List String) :
    List String :=
  if newLines.getLast? = some anchorLine then newLines.dropLast else newLines

/-- Modelled from the spec: strip replacement lines that echo the lines
immediately surrounding a replaced range (the line before `startLine` and
the line after `endLine`, 1-indexed). -/
def stripRangeBoundaryEcho (lines : List String) (startLine endLine : Nat)
    (newLines : List String) : List String :=
  let afterHead :=
    match newLines with
    | l :: tl =>
      if 2 ≤ startLine ∧ lines.getD (startLine - 2) "" = l then tl
      else newLines
    | [] => []
  if afterHead.getLast? = some (lines.getD endLine "") ∧
      endLine < lines.length then afterHead.dropLast
  else afterHead

/-! ### Line hasher and reference validation

`hash-computation.ts` and `validation.ts` are not in the source tree; the
definitions in this section are modelled from the specification (§4.1, §4.2):
a 2-character code over the fixed 16-symbol alphabet derived from a 32-bit
non-cryptographic hash of `(lineNumber, content)`, and parse / bounds /
staleness checking of `"N"` / `"N#HH"` references. -/

def cidAlphabet : List Char :=
  ['Z', 'P', 'M', 'Q', 'V', 'R', 'W', 'S', 'N', 'K', 'T', 'X', 'J', 'B', 'Y', 'H']

/-- Modelled from the spec: a deterministic 32-bit hash of
`(lineNumber, content)` reduced to a 2-symbol (256-value) code over
`cidAlphabet`.  Stands in for the engine's xxHash32-based code; no claim
depends on the concrete hash values. -/
def computeLineHash (lineNumber : Nat) (content : String) : String :=
  let h := content.data.foldl
    (fun acc c => (acc * 31 + c.toNat) % 4294967296)
    (lineNumber % 4294967296)
  ⟨[cidAlphabet.getD (h / 16 % 16) 'Z', cidAlphabet.getD (h % 16) 'Z']⟩

/-- A parsed line reference: 1-indexed line number and optional 2-character
hash code. -/
structure LineRef where
  line : Nat
  hash : Option String
deriving DecidableEq

/-- Modelled from the spec: `parseLineRef` accepts exactly `digits` or
`digits#HH` with `HH` two alphabet characters; anything else is an
`InvalidLineRefFormat` failure. -/
def parseLineRef (ref : String) : Except String LineRef :=
  match splitChar '#' ref with
  | [numPart] =>
    match digitsToNat numPart.data with
    | some n => .ok ⟨n, none⟩
    | none => .error ("Invalid line reference format: " ++ ref)
  | [numPart, hashPart] =>
    match digitsToNat numPart.data with
    | some n =>
      if hashPart.length = 2 ∧ hashPart.data.all (fun c => cidAlphabet.contains c) then
        .ok ⟨n, some hashPart⟩
      else .error ("Invalid line reference format: " ++ ref)
    | none => .error ("Invalid line reference format: " ++ ref)
  | _ => .error ("Invalid line reference format: " ++ ref)

/-- Modelled from the spec: `validateLineRef` parses the reference, fails
with `LineOutOfRange` when the line number is outside `1..lines.length`, and
when a hash is cited fails with `StaleLineReference` unless the freshly
computed hash of the current line matches. -/
def validateLineRef (lines : List String) (ref : String) :
    Except String Unit :=
  match parseLineRef ref with
  | .error e => .error e
  | .ok r =>
    if r.line < 1 ∨ lines.length < r.line then
      .error ("Line " ++ toString r.line ++ " out of range (file has " ++
        toString lines.length ++ " lines): " ++ ref)
    else
      match r.hash with
      | none => .ok ()
      | some h =>
        if computeLineHash r.line (lines.getD (r.line - 1) "") = h then .ok ()
        else .error ("Stale line reference: " ++ ref)

/-- Modelled from the spec: validate every collected reference against the
same line snapshot, failing on the first violation. -/
def validateLineRefs (lines : List String) : List String → Except String Unit
  | [] => .ok ()
  | r :: tl =>
    match validateLineRef lines r with
    | .error e => .error e
    | .ok _ => validateLineRefs lines tl

theorem validateLineRefs_nil (lines : List String) :
    validateLineRefs lines [] = .ok () := rfl

/-! ### Insertion-ordered maps

A JavaScript `Map` with string keys: an association list where `set` updates
an existing key in place (keeping its position) and appends a new key at the
end, so that iteration order is first-insertion order. -/

def mapGet {α : Type} (m : List (String × α)) (k : String) : Option α :=
  match m with
  | [] => none
  | (k2, v) :: tl => if k2 = k then some v else mapGet tl k

def mapSet {α : Type} (m : List (String × α)) (k : String) (v : α) :
    List (String × α) :=
  match m with
  | [] => [(k, v)]
  | (k2, v2) :: tl =>
    if k2 = k then (k, v) :: tl else (k2, v2) :: mapSet tl k v

theorem mapGet_mapSet {α : Type} (m : List (String × α)) (k k2 : String)
    (v : α) :
    mapGet (mapSet m k v) k2 = if k = k2 then some v else mapGet m k2 := by
  induction m with
  | nil =>
    simp only [mapSet, mapGet]
  | cons e tl ih =>
    obtain ⟨ke, ve⟩ := e
    simp only [mapSet]
    by_cases h : ke = k
    · subst h
      simp only [if_pos rfl, mapGet]
      by_cases h2 : ke = k2
      · simp [h2]
      · simp [h2, mapGet, fun hk : ke = k2 => h2 hk]
    · rw [if_neg h]
      simp only [mapGet]
      by_cases h2 : ke = k2
      · subst h2
        have : ¬k = ke := fun hk => h hk.symm
        simp [this]
      · rw [if_neg h2, if_neg h2, ih]

theorem mapSet_of_get_none {α : Type} (m : List (String × α)) (k : String)
    (v : α) (h : mapGet m k = none) : mapSet m k v = m ++ [(k, v)] := by
  induction m with
  | nil => rfl
  | cons e tl ih =>
    obtain ⟨ke, ve⟩ := e
    simp only [mapGet] at h
    by_cases h2 : ke = k
    · rw [if_pos h2] at h; cases h
    · rw [if_neg h2] at h
      simp only [mapSet, if_neg h2, List.cons_append, ih h]

theorem filter_mapSet_of_neg {α : Type} (p : String → Bool)
    (m : List (String × α)) (k : String) (v : α) (hp : p k = false) :
    (mapSet m k v).filter (fun e => p e.1) = m.filter fun e => p e.1 := by
  induction m with
  | nil => simp [mapSet, List.filter, hp]
  | cons e tl ih =>
    obtain ⟨ke, ve⟩ := e
    simp only [mapSet]
    by_cases h : ke = k
    · subst h
      simp [List.filter, hp]
    · simp only [if_neg h, List.filter]
      cases hke : p ke <;> simp [ih]

/-- Final contents of the count map built by repeated
`set(k, (get(k) ?? 0) + 1)`. -/
def bumpCount {α : Type} (m : List (String × Nat)) (p : String × α) :
    List (String × Nat) :=
  mapSet m p.1 ((mapGet m p.1).getD 0 + 1)

theorem mapGet_foldl_bumpCount {α : Type} (ps : List (String × α)) :
    ∀ (m : List (String × Nat)) (k : String),
      mapGet (ps.foldl bumpCount m) k =
        if ps.countP (fun q => q.1 == k) = 0 then mapGet m k
        else some ((mapGet m k).getD 0 + ps.countP fun q => q.1 == k) := by
  induction ps with
  | nil => intro m k; simp
  | cons p tl ih =>
    intro m k
    obtain ⟨kp, vp⟩ := p
    simp only [List.foldl_cons]
    rw [ih]
    have hset := mapGet_mapSet m kp k ((mapGet m kp).getD 0 + 1)
    by_cases h : kp = k
    · subst h
      have hcount : ((kp, vp) :: tl).countP (fun q => q.1 == kp) =
          tl.countP (fun q => q.1 == kp) + 1 := by
        rw [List.countP_cons]
        simp
      rw [hcount]
      simp only [bumpCount]
      rw [hset, if_pos rfl]
      by_cases h0 : tl.countP (fun q => q.1 == kp) = 0
      · simp [h0]
      · have hne : ¬(tl.countP (fun q => q.1 == kp) + 1 = 0) := by omega
        rw [if_neg h0, if_neg hne]
        simp only [Option.getD_some]
        congr 1
        omega
    · have hcount : ((kp, vp) :: tl).countP (fun q => q.1 == k) =
          tl.countP (fun q => q.1 == k) := by
        rw [List.countP_cons]
        simp [h]
      rw [hcount]
      simp only [bumpCount, hset, if_neg h]

/-- The entries of a `set`-built map, restricted to keys that occur at most
once in the input stream and not at all in the seed map, are exactly the
input pairs with those keys, in stream order. -/
theorem filter_foldl_mapSet {α : Type} (p : String → Bool)
    (ps : List (String × α)) :
    ∀ m : List (String × α),
      (∀ k, p k = true →
        ps.countP (fun q => q.1 == k) ≤ 1 ∧
        (0 < ps.countP (fun q => q.1 == k) → mapGet m k = none)) →
      ((ps.foldl (fun m2 q => mapSet m2 q.1 q.2) m).filter fun e => p e.1) =
        (m.filter fun e => p e.1) ++ (ps.filter fun e => p e.1) := by
  induction ps with
  | nil => intro m _; simp
  | cons q tl ih =>
    intro m hm
    obtain ⟨kq, vq⟩ := q
    simp only [List.foldl_cons]
    have hstep : ∀ k, p k = true →
        tl.countP (fun r => r.1 == k) ≤ 1 ∧
        (0 < tl.countP (fun r => r.1 == k) →
          mapGet (mapSet m kq vq) k = none) := by
      intro k hk
      obtain ⟨h1, h2⟩ := hm k hk
      have hcons : ((kq, vq) :: tl).countP (fun r => r.1 == k) =
          tl.countP (fun r => r.1 == k) + (if kq = k then 1 else 0) := by
        rw [List.countP_cons]
        by_cases hq : kq = k <;> simp [hq]
      constructor
      · omega
      · intro hpos
        rw [mapGet_mapSet]
        by_cases hq : kq = k
        · exfalso
          rw [hcons, if_pos hq] at h1
          omega
        · rw [if_neg hq]
          exact h2 (by omega)
    rw [ih (mapSet m kq vq) hstep]
    by_cases hq : p kq = true
    · have hnone : mapGet m kq = none := by
        obtain ⟨_, h2⟩ := hm kq hq
        refine h2 ?_
        rw [List.countP_cons]
        simp
      rw [mapSet_of_get_none m kq vq hnone, List.filter_append]
      simp [List.filter, hq]
    · have hq2 : p kq = false := by
        cases h : p kq
        · rfl
        · exact absurd h hq
      rw [filter_mapSet_of_neg p m kq vq hq2]
      simp [List.filter, hq2]

/-! ### Autocorrection heuristics (`autocorrect-replacement-lines`) -/

/-- `text.replace(/\s+/g, "")`. -/
def stripAllWhitespace (text : String) : String :=
  ⟨text.data.filter fun c => !c.isWhitespace⟩

/-- The continuation tokens of
`/(?:&&|\|\||\?\?|\?|:|=|,|\+|-|\*|\/|\.|\()\s*$/u`, in the regex's
alternation order. -/
def continuationTokens : List String :=
  ["&&", "||", "??", "?", ":", "=", ",", "+", "-", "*", "/", ".", "("]

def dropTrailingWs (s : String) : String :=
  ⟨(s.data.reverse.dropWhile fun c => c.isWhitespace).reverse⟩

/-- Remove one trailing continuation token (and any whitespace after it) from
the end of the text; if no token ends the text it is returned unchanged. -/
def stripTrailingContinuationTokens (text : String) : String :=
  let t := dropTrailingWs text
  match continuationTokens.find? (fun tok => endsWithStr t tok) with
  | some tok => ⟨t.data.take (t.data.length - tok.data.length)⟩
  | none => text

/-- A stale-wrap candidate: a span of `len` replacement lines starting at
0-based `start` to be replaced by the single original line `replacement`. -/
structure WrapCand where
  start : Nat
  len : Nat
  replacement : String
deriving DecidableEq

/-- One step of building `canonicalToOriginal`: keep the first-seen line for
a canonical form and count every further occurrence. -/
def buildCanonStep (m : List (String × (String × Nat))) (line : String) :
    List (String × (String × Nat)) :=
  let canonical := stripAllWhitespace line
  match mapGet m canonical with
  | some lc => mapSet m canonical (lc.1, lc.2 + 1)
  | none => mapSet m canonical (line, 1)

/-- The `canonicalToOriginal` map of `restoreOldWrappedLines`. -/
def buildCanonMap (originalLines : List String) :
    List (String × (String × Nat)) :=
  originalLines.foldl buildCanonStep []

/-- The body of the double scan loop at `(start, len = k + 2)`: the passing
span (no blank line, canonical form matching a unique original line, at
least 6 canonical characters) together with its canonical form, or `none`
when any guard rejects it. -/
def scanSpanAt (canonMap : List (String × (String × Nat)))
    (repl : List String) (start k : Nat) : Option (String × WrapCand) :=
  let len := k + 2
  if start + len ≤ repl.length then
    let span := (repl.drop start).take len
    if span.any (fun l => jsTrim l = "") then none
    else
      let canonical := stripAllWhitespace (String.join span)
      match mapGet canonMap canonical with
      | some lc =>
        if lc.2 = 1 ∧ 6 ≤ canonical.length then
          some (canonical, ⟨start, len, lc.1⟩)
        else none
      | none => none
  else none

/-- The double scan loop of `restoreOldWrappedLines`:
`start` ranges over the replacement indices, `len` over `2..10`. -/
def scanSpans (canonMap : List (String × (String × Nat)))
    (repl : List String) : List (String × WrapCand) :=
  (List.range repl.length).flatMap fun start =>
    (List.range 9).filterMap fun k => scanSpanAt canonMap repl start k

/-- `correctedLines.splice(start, len, replacement)`. -/
def spliceCand (acc : List String) (cand : WrapCand) : List String :=
  acc.take cand.start ++ [cand.replacement] ++ acc.drop (cand.start + cand.len)

/-- Descending-`start` comparator of `uniqueCandidates.sort`. -/
def candLE (a b : WrapCand) : Prop := b.start ≤ a.start

instance : DecidableRel candLE := fun a b => Nat.decLe b.start a.start

/-- `restoreOldWrappedLines`: replace contiguous spans of 2–10 replacement
lines whose whitespace-insensitive concatenation uniquely matches a unique
original line by that original line, from the last match backward.
`candidateCounts` and `candidates` are built in one pass over the scan, as
in the source. -/
def restoreOldWrappedLines (originalLines replacementLines : List String) :
    List String :=
  if originalLines.length = 0 ∨ replacementLines.length < 2 then
    replacementLines
  else
    let canonMap := buildCanonMap originalLines
    let scan := scanSpans canonMap replacementLines
    let maps := scan.foldl
      (fun ms p => (bumpCount ms.1 p, mapSet ms.2 p.1 p.2))
      (([], []) : List (String × Nat) × List (String × WrapCand))
    let uniqueCandidates :=
      (maps.2.filter fun e => (mapGet maps.1 e.1).getD 0 == 1).map fun e => e.2
    if uniqueCandidates.length = 0 then replacementLines
    else
      (List.insertionSort candLE uniqueCandidates).foldl spliceCand
        replacementLines

/-- JavaScript `hay.indexOf(sub, offset)` (as `Option`). -/
def indexOfFrom (hay sub : String) (offset : Nat) : Option Nat :=
  (List.range (hay.data.length + 1)).find? fun i =>
    decide (offset ≤ i) && sub.data.isPrefixOf (hay.data.drop i)

/-- `merged.slice(start, stop)` for `start ≤ stop`. -/
def strSlice (s : String) (start stop : Nat) : String :=
  ⟨(s.data.drop start).take (stop - start)⟩

/-- The part-locating loop of `maybeExpandSingleLineMerge`: find each part
(or its continuation-stripped form) in order, at increasing offsets. -/
def locateParts (merged : String) : List String → Nat → Option (List Nat)
  | [], _ => some []
  | part :: tl, offset =>
    match indexOfFrom merged part offset with
    | some idx =>
      match locateParts merged tl (idx + part.data.length) with
      | some rest => some (idx :: rest)
      | none => none
    | none =>
      let stripped := stripTrailingContinuationTokens part
      if stripped ≠ part then
        match indexOfFrom merged stripped offset with
        | some idx =>
          match locateParts merged tl (idx + stripped.data.length) with
          | some rest => some (idx :: rest)
          | none => none
        | none => none
      else none

/-- The expansion loop of `maybeExpandSingleLineMerge`: cut the merged line
at the located indices and trim each piece, failing on an empty piece. -/
def expandAt (merged : String) : List Nat → Option (List String)
  | [] => some []
  | start :: rest =>
    let stop := match rest with | next :: _ => next | [] => merged.data.length
    let candidate := jsTrim (strSlice merged start stop)
    if candidate = "" then none
    else
      match expandAt merged rest with
      | some tl => some (candidate :: tl)
      | none => none

theorem length_dropWhile_le_self {α : Type} (p : α → Bool) (l : List α) :
    (l.dropWhile p).length ≤ l.length := by
  induction l with
  | nil => simp
  | cons a tl ih =>
    rw [List.dropWhile_cons]
    split
    · exact Nat.le_succ_of_le ih
    · simp

/-- Split on `/;\s+/`; `fuel` bounds the recursion (every step consumes at
least one character, so `cs.length` fuel is enough). -/
def splitSemiWsFuel : Nat → List Char → List Char → List (List Char)
  | 0, _, acc => [acc.reverse]
  | fuel + 1, cs, acc =>
    match cs with
    | [] => [acc.reverse]
    | c :: rest =>
      if c == ';' && (match rest with | c2 :: _ => c2.isWhitespace | [] => false) then
        acc.reverse :: splitSemiWsFuel fuel (rest.dropWhile fun ch => ch.isWhitespace) []
      else splitSemiWsFuel fuel rest (c :: acc)

/-- `merged.split(/;\s+/)`. -/
def splitSemiWs (cs : List Char) : List (List Char) :=
  splitSemiWsFuel cs.length cs []

/-- Re-append `";"` to every piece but the last (when missing); the
`idx < arr.length - 1` test of the source's indexed map. -/
def appendSemis : List String → List String
  | [] => []
  | [l] => [l]
  | l :: tl => (if endsWithStr l ";" then l else l ++ ";") :: appendSemis tl

/-- `semicolonSplitFallback`. -/
def semicolonSplitFallback (merged : String) (expectedCount : Nat)
    (replacementLines : List String) : List String :=
  let semicolonSplit :=
    (((appendSemis ((splitSemiWs merged.data).map fun l => (⟨l⟩ : String))).map
      fun line => jsTrim line).filter fun line => line ≠ "")
  if semicolonSplit.length = expectedCount then semicolonSplit
  else replacementLines

/-- `maybeExpandSingleLineMerge`. -/
def maybeExpandSingleLineMerge (originalLines replacementLines : List String) :
    List String :=
  if replacementLines.length ≠ 1 ∨ originalLines.length ≤ 1 then
    replacementLines
  else
    let merged := replacementLines.headD ""
    let parts := (originalLines.map fun line => jsTrim line).filter fun line =>
      line ≠ ""
    if parts.length ≠ originalLines.length then replacementLines
    else
      match locateParts merged parts 0 with
      | none =>
        semicolonSplitFallback merged originalLines.length replacementLines
      | some indices =>
        match expandAt merged indices with
        | none =>
          semicolonSplitFallback merged originalLines.length replacementLines
        | some expanded =>
          if expanded.length = originalLines.length then expanded
          else
            semicolonSplitFallback merged originalLines.length replacementLines

/-- The per-line body of `restoreIndentForPairedReplacement`. -/
def restoreIndentLine (originalLine line : String) : String :=
  if line.length = 0 ∨ 0 < (leadingWhitespaceOf line).length then line
  else
    let indent := leadingWhitespaceOf originalLine
    if indent.length = 0 ∨ jsTrim originalLine = jsTrim line then line
    else indent ++ line

/-- Pairwise traversal standing for the source's
`replacementLines.map((line, idx) => ...)` read of `originalLines[idx]`
(the two lists have equal length whenever this is reached). -/
def restoreIndentPairs : List String → List String → List String
  | o :: os, r :: rs => restoreIndentLine o r :: restoreIndentPairs os rs
  | _, rs => rs

/-- `restoreIndentForPairedReplacement`. -/
def restoreIndentForPairedReplacement
    (originalLines replacementLines : List String) : List String :=
  if originalLines.length ≠ replacementLines.length then replacementLines
  else restoreIndentPairs originalLines replacementLines

/-- `autocorrectReplacementLines`: the three heuristics in pipeline order. -/
def autocorrectReplacementLines (originalLines replacementLines : List String) :
    List String :=
  restoreIndentForPairedReplacement originalLines
    (restoreOldWrappedLines originalLines
      (maybeExpandSingleLineMerge originalLines replacementLines))

/-! ### Edit batch preprocessing (`edit-sorting.ts`) -/

/-- The derived anchor line of an edit: for `replace` the `end` (or `pos`)
line, for anchored `append` / `prepend` the `pos` line, and for whole-file
`append` / `prepend` the `Number.NEGATIVE_INFINITY` sentinel (`none` here,
ordered below every line number).  A reference whose parse fails is mapped
to the sentinel as well; such a batch never reaches the apply loop, since
validation parses every collected reference. -/
def getEditLineNumber : HashlineEdit → Option Nat
  | .replace pos endPos _ =>
    match parseLineRef (endPos.getD pos) with
    | .ok r => some r.line
    | .error _ => none
  | .append pos _ =>
    match pos with
    | some p =>
      match parseLineRef p with
      | .ok r => some r.line
      | .error _ => none
    | none => none
  | .prepend pos _ =>
    match pos with
    | some p =>
      match parseLineRef p with
      | .ok r => some r.line
      | .error _ => none
    | none => none

/-- Strict order on anchor lines with `none` as minus infinity. -/
def lineKeyLt (a b : Option Nat) : Bool :=
  match a, b with
  | none, none => false
  | none, some _ => true
  | some _, none => false
  | some x, some y => decide (x < y)

/-- `EDIT_PRECEDENCE`: `replace` before `append` before `prepend`. -/
def editPrecedence : HashlineEdit → Nat
  | .replace _ _ _ => 0
  | .append _ _ => 1
  | .prepend _ _ => 2

/-- The sort comparator of the orchestrator as a total preorder:
`a` sorts no later than `b` iff `b`'s anchor line is strictly below `a`'s
(descending line numbers), or the lines tie and `a`'s operation precedence
is no greater. -/
def editLE (a b : HashlineEdit) : Prop :=
  lineKeyLt (getEditLineNumber b) (getEditLineNumber a) = true ∨
    (getEditLineNumber a = getEditLineNumber b ∧
      editPrecedence a ≤ editPrecedence b)

instance : DecidableRel editLE := fun a b =>
  inferInstanceAs (Decidable (_ = true ∨ (_ = _ ∧ _ ≤ _)))

/-- The stable comparator sort
`[...dedupeResult.edits].sort((a, b) => ...)` of the orchestrator. -/
def sortEdits (edits : List HashlineEdit) : List HashlineEdit :=
  List.insertionSort editLE edits

/-- `collectLineRefs`. -/
def collectLineRefs (edits : List HashlineEdit) : List String :=
  edits.flatMap fun e =>
    match e with
    | .replace pos endPos _ =>
      match endPos with
      | some e2 => [pos, e2]
      | none => [pos]
    | .append pos _ =>
      match pos with
      | some p => [p]
      | none => []
    | .prepend pos _ =>
      match pos with
      | some p => [p]
      | none => []

/-- An interval entry of `detectOverlappingRanges`: 1-indexed start / stop
lines and the 0-based position `idx` of the edit in the list handed to the
function. -/
structure RangeEntry where
  start : Nat
  stop : Nat
  idx : Nat
deriving DecidableEq

/-- The range-collection loop of `detectOverlappingRanges`: one entry per
ranged `replace`; a throwing `parseLineRef` aborts (the orchestrator never
reaches this state, since validation runs first). -/
def collectRangesGo (i : Nat) : List HashlineEdit → Except String (List RangeEntry)
  | [] => .ok []
  | e :: tl =>
    match e with
    | .replace pos (some endRef) _ =>
      match parseLineRef pos with
      | .error err => .error err
      | .ok rs =>
        match parseLineRef endRef with
        | .error err => .error err
        | .ok re =>
          match collectRangesGo (i + 1) tl with
          | .error err => .error err
          | .ok rest => .ok (⟨rs.line, re.line, i⟩ :: rest)
    | _ => collectRangesGo (i + 1) tl

def collectRanges (edits : List HashlineEdit) : Except String (List RangeEntry) :=
  collectRangesGo 0 edits

/-- `a.start - b.start || a.end - b.end`: ascending lexicographic order on
`(start, stop)`. -/
def rangeLE (a b : RangeEntry) : Prop :=
  a.start < b.start ∨ (a.start = b.start ∧ a.stop ≤ b.stop)

instance : DecidableRel rangeLE := fun a b =>
  inferInstanceAs (Decidable (_ < _ ∨ (_ = _ ∧ _ ≤ _)))

/-- The `OverlappingRangeEdits` message. -/
def overlapMessage (prev curr : RangeEntry) : String :=
  "Overlapping range edits detected: edit " ++ toString (prev.idx + 1) ++
    " (lines " ++ toString prev.start ++ "-" ++ toString prev.stop ++
    ") overlaps with edit " ++ toString (curr.idx + 1) ++ " (lines " ++
    toString curr.start ++ "-" ++ toString curr.stop ++
    "). Use pos-only replace for single-line edits."

/-- The adjacent-pair scan over the sorted intervals. -/
def scanOverlap : List RangeEntry → Option String
  | a :: b :: tl =>
    if b.start ≤ a.stop then some (overlapMessage a b)
    else scanOverlap (b :: tl)
  | _ => none

/-- `detectOverlappingRanges`. -/
def detectOverlappingRanges (edits : List HashlineEdit) :
    Except String (Option String) :=
  match collectRanges edits with
  | .error e => .error e
  | .ok ranges =>
    if ranges.length < 2 then .ok none
    else .ok (scanOverlap (List.insertionSort rangeLE ranges))

/-- `normalizeEditPayload`: collapse string / split-line payload
differences. -/
def normalizeEditPayload (payload : TextLines) : String :=
  joinLines (toNewLines payload)

/-- `buildDedupeKey`. -/
def buildDedupeKey : HashlineEdit → String
  | .replace pos endPos lines =>
    "replace|" ++ pos ++ "|" ++ endPos.getD "" ++ "|" ++
      normalizeEditPayload lines
  | .append pos lines =>
    "append|" ++ pos.getD "" ++ "|" ++ normalizeEditPayload lines
  | .prepend pos lines =>
    "prepend|" ++ pos.getD "" ++ "|" ++ normalizeEditPayload lines

/-- The result record of `dedupeEdits`. -/
structure DedupeResult where
  edits : List HashlineEdit
  deduplicatedEdits : Nat
deriving DecidableEq

/-- The dedup loop: `seen` is the JavaScript `Set` of keys already kept. -/
def dedupeGo (seen : List String) : List HashlineEdit → DedupeResult
  | [] => ⟨[], 0⟩
  | e :: tl =>
    if seen.contains (buildDedupeKey e) then
      let r := dedupeGo seen tl
      ⟨r.edits, r.deduplicatedEdits + 1⟩
    else
      let r := dedupeGo (buildDedupeKey e :: seen) tl
      ⟨e :: r.edits, r.deduplicatedEdits⟩

/-- `dedupeEdits`. -/
def dedupeEdits (edits : List HashlineEdit) : DedupeResult :=
  dedupeGo [] edits

/-! ### Edit application (`edit-application`) -/

/-- `arraysEqual`: element-wise comparison after a length check. -/
def arraysEqual (a b : List String) : Bool :=
  if a.length ≠ b.length then false
  else (List.range a.length).all fun i => a.getD i "" == b.getD i ""

/-- `applySetLine`: single-line replace at a `pos` anchor.  The splice
`result.splice(line - 1, 1, ...replacement)` becomes take / drop around the
replaced index; `restoreLeadingIndent` is applied to the first corrected
line only (the source's indexed map). -/
def applySetLine (lines : List String) (anchor : String)
    (newText : TextLines) (options : Option EditApplyOptions) :
    Except String (List String) :=
  match (if shouldValidate options then validateLineRef lines anchor
    else .ok ()) with
  | .error e => .error e
  | .ok _ =>
    match parseLineRef anchor with
    | .error e => .error e
    | .ok r =>
      let line := r.line
      let originalLine := lines.getD (line - 1) ""
      let corrected :=
        autocorrectReplacementLines [originalLine] (toNewLines newText)
      let replacement :=
        match corrected with
        | [] => []
        | c0 :: rest => restoreLeadingIndent originalLine c0 :: rest
      .ok (lines.take (line - 1) ++ replacement ++ lines.drop (line - 1 + 1))

/-- `applyReplaceLines`: inclusive range replace from `pos` to `end`. -/
def applyReplaceLines (lines : List String) (startAnchor endAnchor : String)
    (newText : TextLines) (options : Option EditApplyOptions) :
    Except String (List String) :=
  match (if shouldValidate options then
    ((match validateLineRef lines startAnchor with
      | .error e => .error e
      | .ok _ => validateLineRef lines endAnchor) : Except String Unit)
    else .ok ()) with
  | .error e => .error e
  | .ok _ =>
    match parseLineRef startAnchor with
    | .error e => .error e
    | .ok rs =>
      match parseLineRef endAnchor with
      | .error e => .error e
      | .ok re =>
        let startLine := rs.line
        let endLine := re.line
        if endLine < startLine then
          .error ("Invalid range: start line " ++ toString startLine ++
            " cannot be greater than end line " ++ toString endLine)
        else
          let originalRange :=
            (lines.drop (startLine - 1)).take (endLine - (startLine - 1))
          let stripped :=
            stripRangeBoundaryEcho lines startLine endLine (toNewLines newText)
          let corrected := autocorrectReplacementLines originalRange stripped
          let restored :=
            match corrected with
            | [] => []
            | c0 :: rest =>
              restoreLeadingIndent (lines.getD (startLine - 1) "") c0 :: rest
          .ok (lines.take (startLine - 1) ++ restored ++
            lines.drop (startLine - 1 + (endLine - startLine + 1)))

/-- `applyInsertAfter`: anchored `append`. -/
def applyInsertAfter (lines : List String) (anchor : String)
    (text : TextLines) (options : Option EditApplyOptions) :
    Except String (List String) :=
  match (if shouldValidate options then validateLineRef lines anchor
    else .ok ()) with
  | .error e => .error e
  | .ok _ =>
    match parseLineRef anchor with
    | .error e => .error e
    | .ok r =>
      let line := r.line
      let newLines :=
        stripInsertAnchorEcho (lines.getD (line - 1) "") (toNewLines text)
      if newLines.length = 0 then
        .error ("append (anchored) requires non-empty text for " ++ anchor)
      else
        .ok (lines.take line ++ newLines ++ lines.drop line)

/-- `applyInsertBefore`: anchored `prepend`. -/
def applyInsertBefore (lines : List String) (anchor : String)
    (text : TextLines) (options : Option EditApplyOptions) :
    Except String (List String) :=
  match (if shouldValidate options then validateLineRef lines anchor
    else .ok ()) with
  | .error e => .error e
  | .ok _ =>
    match parseLineRef anchor with
    | .error e => .error e
    | .ok r =>
      let line := r.line
      let newLines :=
        stripInsertBeforeEcho (lines.getD (line - 1) "") (toNewLines text)
      if newLines.length = 0 then
        .error ("prepend (anchored) requires non-empty text for " ++ anchor)
      else
        .ok (lines.take (line - 1) ++ newLines ++ lines.drop (line - 1))

/-- `applyAppend`: whole-file append, replacing the sentinel single-empty-line
state outright. -/
def applyAppend (lines : List String) (text : TextLines) :
    Except String (List String) :=
  let normalized := toNewLines text
  if normalized.length = 0 then
    .error "append requires non-empty text"
  else if lines.length = 1 ∧ lines.getD 0 "" = "" then
    .ok normalized
  else
    .ok (lines ++ normalized)

/-- `applyPrepend`: whole-file prepend, replacing the sentinel
single-empty-line state outright. -/
def applyPrepend (lines : List String) (text : TextLines) :
    Except String (List String) :=
  let normalized := toNewLines text
  if normalized.length = 0 then
    .error "prepend requires non-empty text"
  else if lines.length = 1 ∧ lines.getD 0 "" = "" then
    .ok normalized
  else
    .ok (normalized ++ lines)

/-- One arm of the apply loop's `switch`: every edit is applied with
`skipValidation: true`, references having been validated up front. -/
def applyOne (lines : List String) (e : HashlineEdit) :
    Except String (List String) :=
  match e with
  | .replace pos endPos newText =>
    match endPos with
    | some e2 => applyReplaceLines lines pos e2 newText (some ⟨some true⟩)
    | none => applySetLine lines pos newText (some ⟨some true⟩)
  | .append pos text =>
    match pos with
    | some p => applyInsertAfter lines p text (some ⟨some true⟩)
    | none => applyAppend lines text
  | .prepend pos text =>
    match pos with
    | some p => applyInsertBefore lines p text (some ⟨some true⟩)
    | none => applyPrepend lines text

/-- The apply loop: each edit produces a candidate line sequence; a candidate
element-wise equal to the current one is discarded and counted in
`noopEdits`. -/
def applyLoop (lines : List String) (noopEdits : Nat) :
    List HashlineEdit → Except String (List String × Nat)
  | [] => .ok (lines, noopEdits)
  | e :: tl =>
    match applyOne lines e with
    | .error err => .error err
    | .ok next =>
      if arraysEqual next lines then applyLoop lines (noopEdits + 1) tl
      else applyLoop next noopEdits tl

/-- `applyHashlineEditsWithReport`: dedupe, sort descending by anchor line,
validate every collected reference against the original snapshot, check
range overlaps, then apply bottom-up. -/
def applyHashlineEditsWithReport (content : String)
    (edits : List HashlineEdit) : Except String HashlineApplyReport :=
  if edits.isEmpty then .ok ⟨content, 0, 0⟩
  else
    let dedupeResult := dedupeEdits edits
    let sortedEdits := sortEdits dedupeResult.edits
    let lines := splitContent content
    match validateLineRefs lines (collectLineRefs sortedEdits) with
    | .error e => .error e
    | .ok _ =>
      match detectOverlappingRanges sortedEdits with
      | .error e => .error e
      | .ok (some m) => .error m
      | .ok none =>
        match applyLoop lines 0 sortedEdits with
        | .error e => .error e
        | .ok (ls, noop) =>
          .ok ⟨joinLines ls, noop, dedupeResult.deduplicatedEdits⟩

/-- `applyHashlineEdits`. -/
def applyHashlineEdits (content : String) (edits : List HashlineEdit) :
    Except String String :=
  (applyHashlineEditsWithReport content edits).map fun r => r.content

/-! ### Claim C1 -/

/-- Claim C1: if `applyHashlineEditsWithReport` fails with any engine error
the whole batch aborts with no report (hence no content) produced, the input
snapshot being a value the call cannot change; and every line reference
collected from the (deduplicated, sorted) batch is validated against the
original `splitContent content` snapshot — a validation failure on that
snapshot forces the whole call to fail, and a successful call certifies that
validation against that snapshot succeeded.  The apply loop runs every edit
with `skipValidation: true` (see `applyOne`), so no reference is ever
re-validated against an intermediate line sequence. -/
theorem validation_upfront_against_snapshot (content : String)
    (edits : List HashlineEdit) :
    (∀ e, validateLineRefs (splitContent content)
        (collectLineRefs (sortEdits (dedupeEdits edits).edits)) = .error e →
      ∃ msg, applyHashlineEditsWithReport content edits = .error msg) ∧
    (∀ r, applyHashlineEditsWithReport content edits = .ok r →
      validateLineRefs (splitContent content)
        (collectLineRefs (sortEdits (dedupeEdits edits).edits)) = .ok ()) := by
  by_cases hemp : edits.isEmpty
  · have he : edits = [] := List.isEmpty_iff.mp hemp
    subst he
    constructor
    · intro e hval
      rw [show sortEdits (dedupeEdits ([] : List HashlineEdit)).edits = [] from rfl] at hval
      simp [collectLineRefs, validateLineRefs] at hval
    · intro r _
      rfl
  · rw [applyHashlineEditsWithReport, if_neg hemp]
    cases hv : validateLineRefs (splitContent content)
        (collectLineRefs (sortEdits (dedupeEdits edits).edits)) with
    | error e2 =>
      constructor
      · intro e _
        exact ⟨e2, by simp only [hv]⟩
      · intro r hr
        simp only [hv] at hr
        exact Except.noConfusion hr
    | ok u =>
      constructor
      · intro e he
        exact Except.noConfusion he
      · intro r _
        cases u
        rfl

/-- Witness for C1 at a concrete failing input: an out-of-range reference on
a one-line file makes the whole call fail. -/
theorem validation_upfront_against_snapshot_witness :
    ∃ msg, applyHashlineEditsWithReport "a"
      [.replace "5" none (.str "x")] = .error msg :=
  (validation_upfront_against_snapshot "a" [.replace "5" none (.str "x")]).1
    "Line 5 out of range (file has 1 lines): 5" (by decide)

/-! ### Claim C6 -/

/-- Claim C6: `applyAppend` and `applyPrepend` on the sentinel
single-empty-line sequence `[""]` with a non-empty payload return exactly
the payload lines (replacing the sentinel, leaving no blank line); with an
empty payload each fails with the empty-insert-text error. -/
theorem append_prepend_on_sentinel (t : TextLines) :
    (toNewLines t ≠ [] →
      applyAppend [""] t = .ok (toNewLines t) ∧
      applyPrepend [""] t = .ok (toNewLines t)) ∧
    (toNewLines t = [] →
      applyAppend [""] t = .error "append requires non-empty text" ∧
      applyPrepend [""] t = .error "prepend requires non-empty text") := by
  constructor
  · intro h
    have hlen : ¬(toNewLines t).length = 0 := by
      simpa [List.length_eq_zero] using h
    constructor
    · simp [applyAppend, hlen]
    · simp [applyPrepend, hlen]
  · intro h
    constructor
    · simp [applyAppend, h]
    · simp [applyPrepend, h]

/-- Witness for C6: a two-line payload replaces the sentinel, and the empty
payload fails, at concrete inputs. -/
theorem append_prepend_on_sentinel_witness :
    applyAppend [""] (.str "a\nb") = .ok ["a", "b"] ∧
    applyPrepend [""] (.str "") = .error "prepend requires non-empty text" :=
  ⟨by
    have h := (append_prepend_on_sentinel (.str "a\nb")).1 (by decide)
    simpa using h.1,
   by
    have h := (append_prepend_on_sentinel (.str "")).2 (by decide)
    exact h.2⟩

/-! ### Claim C9 -/

/-- Claim C9: empty input content is treated as the empty line sequence (not
a single empty line), so a batch holding only a whole-file `append` (or
`prepend`) of a non-empty payload returns exactly the payload lines joined
by newline, with no extra leading or trailing empty line. -/
theorem empty_content_append_prepend (t : TextLines) :
    splitContent "" = [] ∧
    (toNewLines t ≠ [] →
      applyHashlineEditsWithReport "" [.append none t] =
        .ok ⟨joinLines (toNewLines t), 0, 0⟩ ∧
      applyHashlineEditsWithReport "" [.prepend none t] =
        .ok ⟨joinLines (toNewLines t), 0, 0⟩) := by
  refine ⟨rfl, ?_⟩
  intro h
  have hlen : ¬(toNewLines t).length = 0 := by
    simpa [List.length_eq_zero] using h
  have hae : arraysEqual (toNewLines t) [] = false := by
    rw [arraysEqual, if_pos]
    simpa using hlen
  constructor
  · have ha : applyAppend [] t = .ok (toNewLines t) := by
      simp [applyAppend, hlen]
    have hloop : applyLoop [] 0 [HashlineEdit.append none t] =
        .ok (toNewLines t, 0) := by
      rw [applyLoop]
      rw [show applyOne [] (HashlineEdit.append none t) = applyAppend [] t
        from rfl, ha]
      simp only [hae, Bool.false_eq_true, if_false, applyLoop]
    rw [applyHashlineEditsWithReport]
    simp only [List.isEmpty_cons, Bool.false_eq_true, if_false]
    rw [show sortEdits (dedupeEdits [HashlineEdit.append none t]).edits =
      [HashlineEdit.append none t] from rfl]
    rw [show validateLineRefs (splitContent "")
      (collectLineRefs [HashlineEdit.append none t]) = .ok () from rfl]
    rw [show detectOverlappingRanges [HashlineEdit.append none t] =
      .ok none from rfl]
    rw [show splitContent "" = [] from rfl, hloop]
    rfl
  · have ha : applyPrepend [] t = .ok (toNewLines t) := by
      simp [applyPrepend, hlen]
    have hloop : applyLoop [] 0 [HashlineEdit.prepend none t] =
        .ok (toNewLines t, 0) := by
      rw [applyLoop]
      rw [show applyOne [] (HashlineEdit.prepend none t) = applyPrepend [] t
        from rfl, ha]
      simp only [hae, Bool.false_eq_true, if_false, applyLoop]
    rw [applyHashlineEditsWithReport]
    simp only [List.isEmpty_cons, Bool.false_eq_true, if_false]
    rw [show sortEdits (dedupeEdits [HashlineEdit.prepend none t]).edits =
      [HashlineEdit.prepend none t] from rfl]
    rw [show validateLineRefs (splitContent "")
      (collectLineRefs [HashlineEdit.prepend none t]) = .ok () from rfl]
    rw [show detectOverlappingRanges [HashlineEdit.prepend none t] =
      .ok none from rfl]
    rw [show splitContent "" = [] from rfl, hloop]
    rfl

/-- Witness for C9 at a concrete payload. -/
theorem empty_content_append_prepend_witness :
    applyHashlineEditsWithReport "" [.append none (.str "hello")] =
      .ok ⟨"hello", 0, 0⟩ := by
  have h := (empty_content_append_prepend (.str "hello")).2 (by decide)
  simpa using h.1

/-! ### Claim C8 -/

/-- The declarative deduplication: keep the first occurrence of every
normalized key, drop all later edits with the same key, preserving order. -/
def dedupSpecF : List HashlineEdit → List HashlineEdit
  | [] => []
  | e :: tl =>
    e :: dedupSpecF (tl.filter fun x => buildDedupeKey x != buildDedupeKey e)
termination_by es => es.length
decreasing_by
  simp only [List.length_cons]
  exact Nat.lt_succ_of_le (List.length_filter_le _ _)

theorem dedupeGo_length (es : List HashlineEdit) :
    ∀ seen, (dedupeGo seen es).edits.length +
      (dedupeGo seen es).deduplicatedEdits = es.length := by
  induction es with
  | nil => intro seen; simp [dedupeGo]
  | cons e tl ih =>
    intro seen
    rw [dedupeGo]
    by_cases h : seen.contains (buildDedupeKey e) = true
    · rw [if_pos h]
      dsimp only
      have := ih seen
      simp only [List.length_cons]
      omega
    · rw [if_neg h]
      dsimp only
      have := ih (buildDedupeKey e :: seen)
      simp only [List.length_cons]
      omega

theorem dedupeGo_edits_spec (es : List HashlineEdit) :
    ∀ seen, (dedupeGo seen es).edits =
      dedupSpecF (es.filter fun e => !(seen.contains (buildDedupeKey e))) := by
  induction es with
  | nil => intro seen; simp [dedupeGo, dedupSpecF]
  | cons e tl ih =>
    intro seen
    rw [dedupeGo]
    by_cases h : seen.contains (buildDedupeKey e) = true
    · rw [if_pos h]
      dsimp only
      rw [List.filter_cons]
      rw [show (!seen.contains (buildDedupeKey e)) = false by
        rw [h]; rfl]
      simp only [Bool.false_eq_true, if_false]
      exact ih seen
    · have hfalse : seen.contains (buildDedupeKey e) = false := by
        cases hc : seen.contains (buildDedupeKey e)
        · rfl
        · exact absurd hc h
      rw [if_neg h]
      dsimp only
      rw [List.filter_cons]
      rw [show (!seen.contains (buildDedupeKey e)) = true by
        rw [hfalse]; rfl]
      simp only [if_true]
      rw [dedupSpecF, ih (buildDedupeKey e :: seen)]
      congr 1
      rw [List.filter_filter]
      refine congrArg dedupSpecF ?_
      apply List.filter_congr
      intro x _
      show (!((buildDedupeKey e :: seen).contains (buildDedupeKey x))) =
        ((buildDedupeKey x != buildDedupeKey e) &&
          !(seen.contains (buildDedupeKey x)))
      rw [List.contains_cons, Bool.not_or]
      rfl

/-- Claim C8: submitting the identical edit twice yields
`deduplicatedEdits = 1` with the edit kept once; in general `dedupeEdits`
keeps exactly the first edit of every normalized `buildDedupeKey`, drops the
repeats in place (preserving the order of survivors), and counts the dropped
edits. -/
theorem dedupe_first_occurrence_wins (e : HashlineEdit)
    (es : List HashlineEdit) :
    dedupeEdits [e, e] = ⟨[e], 1⟩ ∧
    (dedupeEdits es).edits = dedupSpecF es ∧
    (dedupeEdits es).deduplicatedEdits =
      es.length - (dedupSpecF es).length := by
  have hspec : (dedupeEdits es).edits = dedupSpecF es := by
    rw [dedupeEdits, dedupeGo_edits_spec es []]
    congr 1
    simp
  refine ⟨?_, hspec, ?_⟩
  · rw [dedupeEdits, dedupeGo]
    simp only [List.contains_nil, Bool.false_eq_true, if_false]
    rw [dedupeGo]
    simp only [List.contains_cons, beq_self_eq_true, Bool.true_or, if_true,
      dedupeGo]
  · have hlen := dedupeGo_length es []
    rw [dedupeEdits] at hspec ⊢
    have hlen2 : (dedupeGo [] es).edits.length = (dedupSpecF es).length := by
      rw [hspec]
    omega

/-! ### Claim C2 -/

theorem lineKeyLt_asymm {a b : Option Nat} (h : lineKeyLt a b = true) :
    lineKeyLt b a = false := by
  cases a <;> cases b <;> simp_all [lineKeyLt] <;> omega

theorem lineKeyLt_trans {a b c : Option Nat} (h1 : lineKeyLt a b = true)
    (h2 : lineKeyLt b c = true) : lineKeyLt a c = true := by
  cases a <;> cases b <;> cases c <;> simp_all [lineKeyLt] <;> omega

theorem lineKeyLt_total {a b : Option Nat} (h1 : lineKeyLt a b = false)
    (h2 : lineKeyLt b a = false) : a = b := by
  cases a <;> cases b <;> simp_all [lineKeyLt] <;> omega

instance : IsTrans HashlineEdit editLE := by
  constructor
  intro a b c hab hbc
  rcases hab with hab | ⟨hab, hab2⟩
  · rcases hbc with hbc | ⟨hbc, _⟩
    · exact Or.inl (lineKeyLt_trans hbc hab)
    · exact Or.inl (hbc ▸ hab)
  · rcases hbc with hbc | ⟨hbc, hbc2⟩
    · exact Or.inl (by rw [hab]; exact hbc)
    · exact Or.inr ⟨hab.trans hbc, hab2.trans hbc2⟩

instance : IsTotal HashlineEdit editLE := by
  constructor
  intro a b
  cases h1 : lineKeyLt (getEditLineNumber b) (getEditLineNumber a)
  · cases h2 : lineKeyLt (getEditLineNumber a) (getEditLineNumber b)
    · have heq := lineKeyLt_total h2 h1
      rcases Nat.le_total (editPrecedence a) (editPrecedence b) with h | h
      · exact Or.inl (Or.inr ⟨heq, h⟩)
      · exact Or.inr (Or.inr ⟨heq.symm, h⟩)
    · exact Or.inr (Or.inl h2)
  · exact Or.inl (Or.inl h1)

def isWholeFileAppend : HashlineEdit → Bool
  | .append none _ => true
  | _ => false

def isWholeFilePrepend : HashlineEdit → Bool
  | .prepend none _ => true
  | _ => false

/-- Claim C2 (amended): `sortEdits` permutes the deduplicated batch into an
order sorted by the comparator (descending derived anchor line, ties broken
by `replace < append < prepend` precedence); the whole-file sentinel
(`none`, the embedding of `Number.NEGATIVE_INFINITY`) is the minimum, so
whole-file `append` and `prepend` both sort after every line-anchored edit —
at their tie the append precedes, so a whole-file prepend is applied last,
not first. -/
theorem sortEdits_descending_order (es : List HashlineEdit) :
    (sortEdits es).Perm es ∧
    List.Sorted editLE (sortEdits es) ∧
    List.Pairwise (fun a b =>
      lineKeyLt (getEditLineNumber a) (getEditLineNumber b) = false)
      (sortEdits es) ∧
    List.Pairwise (fun a b =>
      ¬(isWholeFilePrepend a = true ∧ isWholeFileAppend b = true))
      (sortEdits es) := by
  have hperm := List.perm_insertionSort editLE es
  have hsorted := List.sorted_insertionSort editLE es
  refine ⟨hperm, hsorted, ?_, ?_⟩
  · refine hsorted.imp ?_
    intro a b hab
    rcases hab with hab | ⟨hab, _⟩
    · exact lineKeyLt_asymm hab
    · rw [hab]
      cases getEditLineNumber b <;> simp [lineKeyLt]
  · refine hsorted.imp ?_
    intro a b hab
    rintro ⟨hpa, hpb⟩
    obtain ⟨pa, rfl⟩ : ∃ t, a = HashlineEdit.prepend none t := by
      cases a with
      | prepend pos t =>
        cases pos with
        | none => exact ⟨t, rfl⟩
        | some p => simp [isWholeFilePrepend] at hpa
      | replace p q t => simp [isWholeFilePrepend] at hpa
      | append pos t => simp [isWholeFilePrepend] at hpa
    obtain ⟨pb, rfl⟩ : ∃ t, b = HashlineEdit.append none t := by
      cases b with
      | append pos t =>
        cases pos with
        | none => exact ⟨t, rfl⟩
        | some p => simp [isWholeFileAppend] at hpb
      | replace p q t => simp [isWholeFileAppend] at hpb
      | prepend pos t => simp [isWholeFileAppend] at hpb
    rcases hab with hab | ⟨_, hab2⟩
    · simp [getEditLineNumber, lineKeyLt] at hab
    · simp [editPrecedence] at hab2

/-- Counterexample for C2 as stated: the sentinel orders a whole-file
prepend LAST, not first.  In a batch holding an anchored append (line 1)
and a whole-file prepend, the sorted order puts the whole-file prepend at
the end, and the orchestrator output is the one obtained by running the
prepend last (`"P\nx\nA"`), not first (which would give `"P\nA\nx"`). -/
theorem sortEdits_wholefile_prepend_not_first :
    sortEdits [HashlineEdit.append (some "1") (.str "A"),
      HashlineEdit.prepend none (.str "P")] =
      [HashlineEdit.append (some "1") (.str "A"),
        HashlineEdit.prepend none (.str "P")] ∧
    applyHashlineEditsWithReport "x"
      [HashlineEdit.append (some "1") (.str "A"),
        HashlineEdit.prepend none (.str "P")] = .ok ⟨"P\nx\nA", 0, 0⟩ ∧
    ("P\nx\nA" : String) ≠ "P\nA\nx" :=
  ⟨by decide, by decide, by decide⟩

/-! ### Claim C5 -/

theorem empty_string_append (s : String) : "" ++ s = s := by
  cases s
  rfl

theorem string_length_eq_zero_iff (s : String) : s.length = 0 ↔ s = "" := by
  constructor
  · intro h
    cases s with
    | mk data =>
      have hd : data = [] := List.length_eq_zero.mp h
      subst hd
      rfl
  · intro h
    subst h
    rfl

/-- Pointwise characterization of `restoreIndentLine`, in the claim's shape:
a non-empty line with no leading whitespace of its own whose trimmed form
differs from the original's is prefixed with the original's leading
whitespace; every other line is unchanged. -/
theorem restoreIndentLine_spec (o l : String) :
    restoreIndentLine o l =
      if l ≠ "" ∧ leadingWhitespaceOf l = "" ∧ jsTrim l ≠ jsTrim o then
        leadingWhitespaceOf o ++ l
      else l := by
  rw [restoreIndentLine]
  by_cases h1 : l = ""
  · have hlen : l.length = 0 := (string_length_eq_zero_iff l).mpr h1
    rw [if_pos (Or.inl hlen)]
    rw [if_neg (show ¬(l ≠ "" ∧ leadingWhitespaceOf l = "" ∧
        jsTrim l ≠ jsTrim o) by simp [h1])]
  · by_cases h2 : leadingWhitespaceOf l = ""
    · have hlw : ¬(l.length = 0 ∨ 0 < (leadingWhitespaceOf l).length) := by
        push_neg
        constructor
        · intro hc
          exact h1 ((string_length_eq_zero_iff l).mp hc)
        · rw [h2]
          simp
      rw [if_neg hlw]
      by_cases h3 : jsTrim l = jsTrim o
      · rw [if_pos (show (leadingWhitespaceOf o).length = 0 ∨
            jsTrim o = jsTrim l from Or.inr h3.symm)]
        rw [if_neg (show ¬(l ≠ "" ∧ leadingWhitespaceOf l = "" ∧
            jsTrim l ≠ jsTrim o) by simp [h3])]
      · by_cases h4 : (leadingWhitespaceOf o).length = 0
        · rw [if_pos (show (leadingWhitespaceOf o).length = 0 ∨
              jsTrim o = jsTrim l from Or.inl h4)]
          rw [if_pos (show l ≠ "" ∧ leadingWhitespaceOf l = "" ∧
              jsTrim l ≠ jsTrim o from ⟨h1, h2, h3⟩)]
          have ho : leadingWhitespaceOf o = "" :=
            (string_length_eq_zero_iff _).mp h4
          rw [ho, empty_string_append]
        · rw [if_neg (show ¬((leadingWhitespaceOf o).length = 0 ∨
              jsTrim o = jsTrim l) by
            push_neg
            exact ⟨h4, fun hc => h3 hc.symm⟩)]
          rw [if_pos (show l ≠ "" ∧ leadingWhitespaceOf l = "" ∧
              jsTrim l ≠ jsTrim o from ⟨h1, h2, h3⟩)]
    · have hpos : 0 < (leadingWhitespaceOf l).length := by
        cases hn : (leadingWhitespaceOf l).length with
        | zero => exact absurd ((string_length_eq_zero_iff _).mp hn) h2
        | succ n => exact Nat.succ_pos n
      rw [if_pos (Or.inr hpos)]
      rw [if_neg (show ¬(l ≠ "" ∧ leadingWhitespaceOf l = "" ∧
          jsTrim l ≠ jsTrim o) by simp [h2])]

theorem restoreIndentPairs_length :
    ∀ os rs : List String, (restoreIndentPairs os rs).length = rs.length := by
  intro os
  induction os with
  | nil => intro rs; cases rs <;> rfl
  | cons o os ih =>
    intro rs
    cases rs with
    | nil => rfl
    | cons r rs =>
      rw [restoreIndentPairs]
      simp only [List.length_cons, ih]

theorem restoreIndentPairs_getD (os : List String) :
    ∀ (rs : List String) (i : Nat), i < rs.length → i < os.length →
      (restoreIndentPairs os rs).getD i "" =
        restoreIndentLine (os.getD i "") (rs.getD i "") := by
  induction os with
  | nil =>
    intro rs i _ h2
    exact absurd h2 (by simp)
  | cons o os ih =>
    intro rs i h1 h2
    cases rs with
    | nil => exact absurd h1 (by simp)
    | cons r rs =>
      rw [restoreIndentPairs]
      cases i with
      | zero => rfl
      | succ n =>
        simp only [List.getD_cons_succ]
        exact ih rs n (by simpa using h1) (by simpa using h2)

/-- Claim C5 (amended): when the corrected replacement and the original have
equal line counts, every NON-EMPTY corrected line with no leading whitespace
of its own whose trimmed form differs from the original line at the same
position is returned prefixed with that original line's leading whitespace;
every other corrected line — including the empty line, which the code
returns untouched — is returned unchanged. -/
theorem restoreIndentForPairedReplacement_spec (orig repl : List String)
    (h : orig.length = repl.length) :
    (restoreIndentForPairedReplacement orig repl).length = repl.length ∧
    ∀ i, i < repl.length →
      (restoreIndentForPairedReplacement orig repl).getD i "" =
        (if repl.getD i "" ≠ "" ∧
            leadingWhitespaceOf (repl.getD i "") = "" ∧
            jsTrim (repl.getD i "") ≠ jsTrim (orig.getD i "") then
          leadingWhitespaceOf (orig.getD i "") ++ repl.getD i ""
        else repl.getD i "") := by
  rw [restoreIndentForPairedReplacement, if_neg (by simp [h])]
  refine ⟨restoreIndentPairs_length orig repl, ?_⟩
  intro i hi
  rw [restoreIndentPairs_getD orig repl i hi (h ▸ hi)]
  exact restoreIndentLine_spec _ _

/-- Witness for C5 at a concrete input: `"b"` inherits the two-space indent
of `"  a"`. -/
theorem restoreIndentForPairedReplacement_spec_witness :
    (restoreIndentForPairedReplacement ["  a"] ["b"]).getD 0 "" = "  b" := by
  have h := (restoreIndentForPairedReplacement_spec ["  a"] ["b"] rfl).2 0
    (by decide)
  rw [h]
  decide

/-- Counterexample for C5 as stated: an empty replacement line has no
leading whitespace of its own and its trimmed form differs from that of the
original `"  x"`, so the claim prescribes output `"  "`; the code returns
the empty line unchanged. -/
theorem restoreIndent_empty_line_counterexample :
    restoreIndentForPairedReplacement ["  x"] [""] = [""] ∧
    ([""] : List String) ≠ ["  "] ∧
    jsTrim "" ≠ jsTrim "  x" ∧ leadingWhitespaceOf "" = "" :=
  ⟨by decide, by decide, by decide, by decide⟩

/-! ### Claim C7 -/

theorem restoreLeadingIndent_self (l : String) :
    restoreLeadingIndent l l = l := by
  rw [restoreLeadingIndent]
  by_cases h : l ≠ "" ∧ leadingWhitespaceOf l = ""
  · rw [if_pos h, h.2, empty_string_append]
  · rw [if_neg h]

theorem arraysEqual_self (a : List String) : arraysEqual a a = true := by
  rw [arraysEqual, if_neg (by simp)]
  rw [List.all_eq_true]
  intro i _
  exact beq_self_eq_true _

theorem take_getD_drop (ls : List String) :
    ∀ i, i < ls.length →
      ls.take i ++ ls.getD i "" :: ls.drop (i + 1) = ls := by
  induction ls with
  | nil => intro i h; exact absurd h (by simp)
  | cons x tl ih =>
    intro i h
    cases i with
    | zero => rfl
    | succ n =>
      simp only [List.take_succ_cons, List.getD_cons_succ, List.drop_succ_cons,
        List.cons_append]
      rw [ih n (by simpa using h)]

/-- Replacing a line with its own exact text is a fixed point of the
autocorrection pipeline. -/
theorem autocorrect_self (l : String) :
    autocorrectReplacementLines [l] [l] = [l] := by
  rw [autocorrectReplacementLines]
  rw [maybeExpandSingleLineMerge,
    if_pos (Or.inr (show ([l] : List String).length ≤ 1 by simp))]
  rw [restoreOldWrappedLines,
    if_pos (Or.inr (show ([l] : List String).length < 2 by simp))]
  rw [restoreIndentForPairedReplacement, if_neg (by simp)]
  rw [show restoreIndentPairs [l] [l] = [restoreIndentLine l l] from rfl]
  rw [restoreIndentLine_spec]
  rw [if_neg (show ¬(l ≠ "" ∧ leadingWhitespaceOf l = "" ∧
      jsTrim l ≠ jsTrim l) by simp)]

/-- Claim C7 (amended): an edit whose candidate line sequence equals the
pre-edit sequence element-wise is discarded and counted in `noopEdits`
rather than applied; in particular, for every content of at least two lines
whose SECOND LINE IS NON-EMPTY, a batch whose single edit replaces line 2
(cited by the plain valid reference `"2"`) with that line's own current text
returns the content unchanged with `noopEdits = 1`. -/
theorem noop_replace_line2 (content : String)
    (h2 : 2 ≤ (splitContent content).length) :
    (∀ (lines : List String) (noop : Nat) (e : HashlineEdit)
      (tl : List HashlineEdit) (next : List String),
      applyOne lines e = .ok next → arraysEqual next lines = true →
      applyLoop lines noop (e :: tl) = applyLoop lines (noop + 1) tl) ∧
    ((splitContent content).getD 1 "" ≠ "" →
      applyHashlineEditsWithReport content
        [.replace "2" none (.str ((splitContent content).getD 1 ""))] =
        .ok ⟨content, 1, 0⟩) := by
  constructor
  · intro lines noop e tl next hnext heq
    rw [applyLoop, hnext]
    show (if arraysEqual next lines = true then applyLoop lines (noop + 1) tl
      else applyLoop next noop tl) = applyLoop lines (noop + 1) tl
    rw [heq, if_pos rfl]
  · intro hne
    set lines := splitContent content with hlines
    set l2 := lines.getD 1 "" with hl2
    have hmem : l2 ∈ lines := by
      rw [hl2, List.getD_eq_getElem?_getD, List.getElem?_eq_getElem
        (by omega : 1 < lines.length)]
      exact List.getElem_mem _
    have hnn : '\n' ∉ l2.data := splitContent_elem_no_newline content l2 hmem
    have htnl : toNewLines (.str l2) = [l2] := by
      rw [toNewLines, if_neg hne, splitNl_of_no_newline l2 hnn]
    have hcorr : autocorrectReplacementLines [lines.getD (2 - 1) ""]
        (toNewLines (.str l2)) = [l2] := by
      rw [show lines.getD (2 - 1) "" = l2 from rfl, htnl, autocorrect_self]
    have hset : applySetLine lines "2" (.str l2) (some ⟨some true⟩) =
        .ok lines := by
      rw [applySetLine]
      rw [show (if shouldValidate (some ⟨some true⟩) = true then
        validateLineRef lines "2" else Except.ok ()) = Except.ok () from rfl]
      rw [show (parseLineRef "2" : Except String LineRef) =
        Except.ok ⟨2, none⟩ from rfl]
      show Except.ok (lines.take (2 - 1) ++
        (match autocorrectReplacementLines [lines.getD (2 - 1) ""]
          (toNewLines (.str l2)) with
        | [] => []
        | c0 :: rest =>
          restoreLeadingIndent (lines.getD (2 - 1) "") c0 :: rest) ++
        lines.drop (2 - 1 + 1)) = Except.ok lines
      rw [hcorr]
      show Except.ok (lines.take (2 - 1) ++
        (restoreLeadingIndent l2 l2 :: []) ++ lines.drop (2 - 1 + 1)) =
        Except.ok lines
      rw [restoreLeadingIndent_self, List.append_assoc]
      show Except.ok (lines.take 1 ++ l2 :: lines.drop (1 + 1)) =
        Except.ok lines
      rw [hl2, take_getD_drop lines 1 (by omega)]
    have hval : validateLineRefs lines ["2"] = .ok () := by
      rw [validateLineRefs]
      rw [show (validateLineRef lines "2" : Except String Unit) =
        (if (2 : Nat) < 1 ∨ lines.length < 2 then
          Except.error ("Line " ++ toString (2 : Nat) ++
            " out of range (file has " ++ toString lines.length ++
            " lines): " ++ "2")
        else Except.ok ()) from rfl]
      rw [if_neg (by omega)]
      rfl
    have hloop : applyLoop lines 0
        [HashlineEdit.replace "2" none (.str l2)] = .ok (lines, 1) := by
      rw [applyLoop]
      rw [show applyOne lines (HashlineEdit.replace "2" none (.str l2)) =
        applySetLine lines "2" (.str l2) (some ⟨some true⟩) from rfl]
      rw [hset]
      show (if arraysEqual lines lines = true then applyLoop lines (0 + 1) []
        else applyLoop lines 0 []) = .ok (lines, 1)
      rw [arraysEqual_self, if_pos rfl, applyLoop]
    rw [applyHashlineEditsWithReport]
    rw [if_neg (by simp)]
    simp only [show sortEdits (dedupeEdits
      [HashlineEdit.replace "2" none (.str l2)]).edits =
      [HashlineEdit.replace "2" none (.str l2)] from rfl,
      show collectLineRefs [HashlineEdit.replace "2" none (.str l2)] =
      ["2"] from rfl]
    rw [← hlines, hval]
    rw [show detectOverlappingRanges
      [HashlineEdit.replace "2" none (.str l2)] = .ok none from rfl]
    rw [hloop]
    show Except.ok (HashlineApplyReport.mk (joinLines lines) 1 (dedupeEdits
      [HashlineEdit.replace "2" none (.str l2)]).deduplicatedEdits) =
      Except.ok (HashlineApplyReport.mk content 1 0)
    rw [show (dedupeEdits [HashlineEdit.replace "2" none
      (.str l2)]).deduplicatedEdits = 0 from rfl]
    rw [hlines, joinLines_splitContent]

/-- Witness for C7 at a concrete two-line content. -/
theorem noop_replace_line2_witness :
    applyHashlineEditsWithReport "a\nb" [.replace "2" none (.str "b")] =
      .ok ⟨"a\nb", 1, 0⟩ := by
  have h := (noop_replace_line2 "a\nb" (by decide)).2 (by decide)
  simpa using h

/-- Counterexample for C7 as stated: when line 2 is the empty line, its
"own current text" is the empty string, whose normalized payload is empty;
the candidate sequence deletes the line, so the batch changes the content
and reports no no-op. -/
theorem noop_replace_line2_empty_counterexample :
    applyHashlineEditsWithReport "a\n\nb"
      [.replace "2" none (.str ((splitContent "a\n\nb").getD 1 ""))] =
      .ok ⟨"a\nb", 0, 0⟩ ∧
    (splitContent "a\n\nb").getD 1 "" = "" ∧
    2 ≤ (splitContent "a\n\nb").length ∧
    ("a\nb" : String) ≠ "a\n\nb" :=
  ⟨by decide, by decide, by decide, by decide⟩

/-! ### Claim C3 -/

theorem scanOverlap_none_iff (rs : List RangeEntry) :
    scanOverlap rs = none ↔
      List.Chain' (fun p c => p.stop < c.start) rs := by
  induction rs with
  | nil => simp [scanOverlap]
  | cons a tl ih =>
    cases tl with
    | nil => simp [scanOverlap]
    | cons b tl2 =>
      rw [scanOverlap, List.chain'_cons]
      by_cases h : b.start ≤ a.stop
      · rw [if_pos h]
        simp only [reduceCtorEq, false_iff, not_and]
        intro hc
        omega
      · rw [if_neg h, ih]
        have : a.stop < b.start := by omega
        simp [this]

theorem scanOverlap_some (rs : List RangeEntry) (m : String)
    (h : scanOverlap rs = some m) :
    ∃ prev curr pre post, rs = pre ++ prev :: curr :: post ∧
      curr.start ≤ prev.stop ∧ m = overlapMessage prev curr := by
  induction rs with
  | nil => simp [scanOverlap] at h
  | cons a tl ih =>
    cases tl with
    | nil => simp [scanOverlap] at h
    | cons b tl2 =>
      rw [scanOverlap] at h
      by_cases hb : b.start ≤ a.stop
      · rw [if_pos hb] at h
        refine ⟨a, b, [], tl2, rfl, hb, ?_⟩
        cases h
        rfl
      · rw [if_neg hb] at h
        obtain ⟨prev, curr, pre, post, heq, hle, hm⟩ := ih h
        exact ⟨prev, curr, a :: pre, post, by rw [List.cons_append, heq],
          hle, hm⟩

theorem collectRangesGo_mem (es : List HashlineEdit) :
    ∀ (i : Nat) (rs : List RangeEntry), collectRangesGo i es = .ok rs →
      ∀ r ∈ rs, i ≤ r.idx ∧
        ∃ p e1 t, es.get? (r.idx - i) =
            some (HashlineEdit.replace p (some e1) t) ∧
          (parseLineRef p).map LineRef.line = .ok r.start ∧
          (parseLineRef e1).map LineRef.line = .ok r.stop := by
  induction es with
  | nil =>
    intro i rs h r hr
    rw [collectRangesGo] at h
    cases h
    simp at hr
  | cons e tl ih =>
    have hstep : ∀ (i : Nat) (rs : List RangeEntry),
        collectRangesGo (i + 1) tl = .ok rs → ∀ r ∈ rs, i ≤ r.idx ∧
        ∃ p2 e2 t2, (e :: tl).get? (r.idx - i) =
            some (HashlineEdit.replace p2 (some e2) t2) ∧
          (parseLineRef p2).map LineRef.line = .ok r.start ∧
          (parseLineRef e2).map LineRef.line = .ok r.stop := by
      intro i rs h r hr
      obtain ⟨hle, p2, e2, t2, hget, hps, hpe⟩ := ih (i + 1) rs h r hr
      refine ⟨by omega, p2, e2, t2, ?_, hps, hpe⟩
      have hidx : r.idx - i = (r.idx - (i + 1)) + 1 := by omega
      rw [hidx]
      exact hget
    intro i rs h r hr
    cases e with
    | replace p oe t =>
      cases oe with
      | some e1 =>
        rw [collectRangesGo] at h
        cases hp : parseLineRef p with
        | error err => rw [hp] at h; cases h
        | ok rp =>
          rw [hp] at h
          cases he : parseLineRef e1 with
          | error err => rw [he] at h; cases h
          | ok re =>
            rw [he] at h
            cases hgo : collectRangesGo (i + 1) tl with
            | error err => rw [hgo] at h; cases h
            | ok rest =>
              rw [hgo] at h
              cases h
              rcases List.mem_cons.mp hr with hr | hr
              · subst hr
                refine ⟨Nat.le_refl i, p, e1, t, ?_, ?_, ?_⟩
                · simp
                · rw [hp]; rfl
                · rw [he]; rfl
              · exact hstep i rest hgo r hr
      | none =>
        exact hstep i rs h r hr
    | append p t =>
      exact hstep i rs h r hr
    | prepend p t =>
      exact hstep i rs h r hr

/-- An edit that is not a ranged replace. -/
def isRangedReplace : HashlineEdit → Bool
  | .replace _ (some _) _ => true
  | _ => false

theorem collectRangesGo_no_ranged (es : List HashlineEdit)
    (h : ∀ e ∈ es, isRangedReplace e = false) :
    ∀ i, collectRangesGo i es = .ok [] := by
  induction es with
  | nil => intro i; rfl
  | cons e tl ih =>
    intro i
    have he := h e (List.mem_cons_self e tl)
    have htl : ∀ e2 ∈ tl, isRangedReplace e2 = false := fun e2 h2 =>
      h e2 (List.mem_cons_of_mem e h2)
    match e, he with
    | .replace p (some e1) t, he => exact Bool.noConfusion he
    | .replace p none t, _ => exact ih htl (i + 1)
    | .append p t, _ => exact ih htl (i + 1)
    | .prepend p t, _ => exact ih htl (i + 1)

theorem chain_of_short (l : List RangeEntry) (h : l.length < 2) :
    List.Chain' (fun p c => p.stop < c.start) l := by
  match l with
  | [] => simp
  | [a] => simp
  | a :: b :: tl => exact absurd h (by simp)

/-- Claim C3 (amended): `detectOverlappingRanges` succeeds with no message
exactly when, after sorting the collected `(start, stop)` intervals by start
then stop, no adjacent pair touches or overlaps; when a pair does
(`curr.start ≤ prev.stop`), it fails with the `OverlappingRangeEdits`
message naming both conflicting edits by their 1-based position IN THE LIST
HANDED TO THE CHECK (the deduplicated, descending-sorted application batch)
together with their line spans, and each named index really is a ranged
replace of that span in that list.  Only ranged replaces contribute
intervals: a batch with no ranged replace always passes.  At the
orchestrator, a detected overlap on the sorted batch aborts the whole call
with that message. -/
theorem detectOverlappingRanges_spec :
    (∀ (es : List HashlineEdit) (rs : List RangeEntry),
      collectRanges es = .ok rs →
      (detectOverlappingRanges es = .ok none ↔
        List.Chain' (fun p c => p.stop < c.start)
          (List.insertionSort rangeLE rs))) ∧
    (∀ (es : List HashlineEdit) (rs : List RangeEntry) (m : String),
      collectRanges es = .ok rs →
      detectOverlappingRanges es = .ok (some m) →
      ∃ prev curr pre post,
        List.insertionSort rangeLE rs = pre ++ prev :: curr :: post ∧
        curr.start ≤ prev.stop ∧ m = overlapMessage prev curr ∧
        (∃ p1 e1 t1, es.get? prev.idx =
            some (HashlineEdit.replace p1 (some e1) t1) ∧
          (parseLineRef p1).map LineRef.line = .ok prev.start ∧
          (parseLineRef e1).map LineRef.line = .ok prev.stop) ∧
        (∃ p2 e2 t2, es.get? curr.idx =
            some (HashlineEdit.replace p2 (some e2) t2) ∧
          (parseLineRef p2).map LineRef.line = .ok curr.start ∧
          (parseLineRef e2).map LineRef.line = .ok curr.stop)) ∧
    (∀ es : List HashlineEdit, (∀ e ∈ es, isRangedReplace e = false) →
      detectOverlappingRanges es = .ok none) ∧
    (∀ (content : String) (edits : List HashlineEdit) (m : String),
      edits ≠ [] →
      validateLineRefs (splitContent content)
        (collectLineRefs (sortEdits (dedupeEdits edits).edits)) = .ok () →
      detectOverlappingRanges (sortEdits (dedupeEdits edits).edits) =
        .ok (some m) →
      applyHashlineEditsWithReport content edits = .error m) := by
  refine ⟨?_, ?_, ?_, ?_⟩
  · intro es rs h
    have hd : detectOverlappingRanges es =
        if rs.length < 2 then .ok none
        else .ok (scanOverlap (List.insertionSort rangeLE rs)) := by
      rw [detectOverlappingRanges, h]
    rw [hd]
    by_cases hlen : rs.length < 2
    · rw [if_pos hlen]
      have hc : List.Chain' (fun p c => p.stop < c.start)
          (List.insertionSort rangeLE rs) :=
        chain_of_short _ (by rw [List.length_insertionSort]; exact hlen)
      simp [hc]
    · rw [if_neg hlen]
      rw [show ((Except.ok (scanOverlap (List.insertionSort rangeLE rs)) :
        Except String (Option String)) = .ok none) ↔
        scanOverlap (List.insertionSort rangeLE rs) = none by
        constructor
        · intro hx
          cases hx2 : scanOverlap (List.insertionSort rangeLE rs) with
          | none => rfl
          | some m => rw [hx2] at hx; cases hx
        · intro hx
          rw [hx]]
      exact scanOverlap_none_iff _
  · intro es rs m h h2
    have hd : detectOverlappingRanges es =
        if rs.length < 2 then .ok none
        else .ok (scanOverlap (List.insertionSort rangeLE rs)) := by
      rw [detectOverlappingRanges, h]
    rw [hd] at h2
    by_cases hlen : rs.length < 2
    · rw [if_pos hlen] at h2
      cases h2
    · rw [if_neg hlen] at h2
      have hscan : scanOverlap (List.insertionSort rangeLE rs) = some m := by
        cases hx : scanOverlap (List.insertionSort rangeLE rs) with
        | none => rw [hx] at h2; cases h2
        | some m2 => rw [hx] at h2; cases h2; rfl
      obtain ⟨prev, curr, pre, post, heq, hle, hm⟩ :=
        scanOverlap_some _ m hscan
      have hprev : prev ∈ rs := by
        rw [← List.mem_insertionSort rangeLE, heq]
        simp
      have hcurr : curr ∈ rs := by
        rw [← List.mem_insertionSort rangeLE, heq]
        simp
      have hp := collectRangesGo_mem es 0 rs h prev hprev
      have hc := collectRangesGo_mem es 0 rs h curr hcurr
      rw [Nat.sub_zero] at hp hc
      exact ⟨prev, curr, pre, post, heq, hle, hm, hp.2, hc.2⟩
  · intro es hno
    rw [detectOverlappingRanges,
      show collectRanges es = .ok [] from collectRangesGo_no_ranged es hno 0]
    rfl
  · intro content edits m hne hval hdet
    rw [applyHashlineEditsWithReport,
      if_neg (by simp [List.isEmpty_iff, hne])]
    simp only [hval, hdet]

/-- Witness for C3: the specification's passing example — ranged replaces
on lines 2-3 and 4-5 are adjacent but non-touching and pass the check. -/
theorem detectOverlappingRanges_spec_witness :
    detectOverlappingRanges
      [HashlineEdit.replace "2" (some "3") (.str "x"),
       HashlineEdit.replace "4" (some "5") (.str "y")] = .ok none := by
  have h := detectOverlappingRanges_spec.1
    [HashlineEdit.replace "2" (some "3") (.str "x"),
     HashlineEdit.replace "4" (some "5") (.str "y")]
    [⟨2, 3, 0⟩, ⟨4, 5, 1⟩] (by decide)
  refine h.mpr ?_
  rw [show List.insertionSort rangeLE [⟨2, 3, 0⟩, ⟨4, 5, 1⟩] =
    ([⟨2, 3, 0⟩, ⟨4, 5, 1⟩] : List RangeEntry) from by decide]
  simp only [List.chain'_cons, List.chain'_singleton, and_true]
  decide

/-- Counterexample for C3 as stated: `detectOverlappingRanges` runs on the
deduplicated, descending-sorted batch, so the message indices do NOT name
positions in the submitted batch.  Submitting `[replace 2-4, replace 3-5]`
sorts to `[replace 3-5, replace 2-4]`; the failure names the 2-4 replace as
"edit 2" (its sorted position) although it is edit 1 of the submitted
batch. -/
theorem overlap_names_sorted_positions_counterexample :
    applyHashlineEditsWithReport "l1\nl2\nl3\nl4\nl5"
      [.replace "2" (some "4") (.str "x"),
       .replace "3" (some "5") (.str "y")] =
      .error (overlapMessage ⟨2, 4, 1⟩ ⟨3, 5, 0⟩) ∧
    overlapMessage ⟨2, 4, 1⟩ ⟨3, 5, 0⟩ ≠ overlapMessage ⟨2, 4, 0⟩ ⟨3, 5, 1⟩ :=
  ⟨by decide, by decide⟩

/-! ### Claim C4 -/

/-- Declarative form of the scan-loop body: a span of `len = k + 2` lines
starting at `start` passes when it fits, holds no blank line, its
whitespace-insensitive concatenation matches EXACTLY ONE original line
(singleton filter), and the canonical form has at least 6 characters. -/
def scanSpanAtSpec (originalLines repl : List String) (start k : Nat) :
    Option (String × WrapCand) :=
  let len := k + 2
  if start + len ≤ repl.length then
    let span := (repl.drop start).take len
    if span.any (fun l => jsTrim l = "") then none
    else
      let canonical := stripAllWhitespace (String.join span)
      match originalLines.filter
        (fun l => stripAllWhitespace l == canonical) with
      | [line] =>
        if 6 ≤ canonical.length then some (canonical, ⟨start, len, line⟩)
        else none
      | _ => none
  else none

/-- The scan in declarative form. -/
def scanSpansSpec (originalLines repl : List String) :
    List (String × WrapCand) :=
  (List.range repl.length).flatMap fun start =>
    (List.range 9).filterMap fun k => scanSpanAtSpec originalLines repl start k

/-- The candidates whose canonical form is achieved by exactly one passing
span, in scan order. -/
def solePassingCandidates (originalLines repl : List String) :
    List WrapCand :=
  ((scanSpansSpec originalLines repl).filter fun p =>
    (scanSpansSpec originalLines repl).countP (fun q => q.1 == p.1) == 1).map
    fun p => p.2

theorem mapGet_foldl_buildCanonStep (ls : List String) :
    ∀ (m : List (String × (String × Nat))) (c : String),
      mapGet (ls.foldl buildCanonStep m) c =
        match mapGet m c with
        | some ln => some (ln.1, ln.2 +
            (ls.filter fun l => stripAllWhitespace l == c).length)
        | none =>
          match ls.filter (fun l => stripAllWhitespace l == c) with
          | [] => none
          | f :: fs => some (f, fs.length + 1) := by
  induction ls with
  | nil =>
    intro m c
    simp only [List.foldl_nil, List.filter_nil]
    cases mapGet m c with
    | none => rfl
    | some ln => simp
  | cons l tl ih =>
    intro m c
    simp only [List.foldl_cons, List.filter_cons]
    rw [ih]
    by_cases hc : stripAllWhitespace l = c
    · rw [show (stripAllWhitespace l == c) = true by
        rw [beq_iff_eq]; exact hc]
      simp only [if_true]
      rw [buildCanonStep]
      rw [show stripAllWhitespace l = c from hc]
      cases hm : mapGet m c with
      | some lc =>
        rw [mapGet_mapSet, if_pos rfl]
        simp only [List.length_cons]
        congr 2
        omega
      | none =>
        rw [mapGet_mapSet, if_pos rfl]
        cases hf : tl.filter (fun l2 => stripAllWhitespace l2 == c) with
        | nil => simp
        | cons f fs =>
          simp only [List.length_cons]
          congr 2
          omega
    · rw [show (stripAllWhitespace l == c) = false by
        rw [beq_eq_false_iff_ne]; exact hc]
      simp only [Bool.false_eq_true, if_false]
      rw [buildCanonStep]
      cases hm : mapGet m (stripAllWhitespace l) with
      | some lc =>
        rw [mapGet_mapSet, if_neg hc]
      | none =>
        rw [mapGet_mapSet, if_neg hc]

theorem scanSpanAt_eq_spec (originalLines repl : List String)
    (start k : Nat) :
    scanSpanAt (buildCanonMap originalLines) repl start k =
      scanSpanAtSpec originalLines repl start k := by
  rw [scanSpanAt, scanSpanAtSpec]
  by_cases h1 : start + (k + 2) ≤ repl.length
  · rw [if_pos h1, if_pos h1]
    by_cases h2 : ((repl.drop start).take (k + 2)).any fun l => jsTrim l = ""
    · rw [if_pos h2, if_pos h2]
    · rw [if_neg h2, if_neg h2]
      simp only [buildCanonMap, mapGet_foldl_buildCanonStep, mapGet]
      cases hf : originalLines.filter (fun l => stripAllWhitespace l ==
        stripAllWhitespace (String.join ((repl.drop start).take (k + 2)))) with
      | nil => rfl
      | cons f fs =>
        cases fs with
        | nil =>
          dsimp only
          by_cases h6 : 6 ≤ (stripAllWhitespace
            (String.join ((repl.drop start).take (k + 2)))).length
          · rw [if_pos ⟨rfl, h6⟩, if_pos h6]
          · rw [if_neg (fun hc => h6 hc.2), if_neg h6]
        | cons f2 fs2 =>
          dsimp only
          rw [if_neg (by
            rintro ⟨hc1, _⟩
            simp only [List.length_cons] at hc1
            omega)]
  · rw [if_neg h1, if_neg h1]

theorem scanSpans_eq_spec (originalLines repl : List String) :
    scanSpans (buildCanonMap originalLines) repl =
      scanSpansSpec originalLines repl := by
  rw [scanSpans, scanSpansSpec]
  congr 1
  funext start
  congr 1
  funext k
  exact scanSpanAt_eq_spec originalLines repl start k

theorem scanFold_split (scan : List (String × WrapCand)) :
    ∀ (a : List (String × Nat)) (b : List (String × WrapCand)),
      scan.foldl (fun ms p => (bumpCount ms.1 p, mapSet ms.2 p.1 p.2)) (a, b) =
        (scan.foldl bumpCount a,
          scan.foldl (fun m q => mapSet m q.1 q.2) b) := by
  induction scan with
  | nil => intro a b; rfl
  | cons p tl ih =>
    intro a b
    simp only [List.foldl_cons]
    exact ih _ _

theorem countGetD_eq (scan : List (String × WrapCand)) (c : String) :
    ((mapGet (scan.foldl bumpCount ([] : List (String × Nat))) c).getD 0
      == 1) = (scan.countP (fun q => q.1 == c) == 1) := by
  rw [mapGet_foldl_bumpCount]
  by_cases h : scan.countP (fun q => q.1 == c) = 0
  · rw [if_pos h, h]
    rfl
  · rw [if_neg h]
    simp only [mapGet, Option.getD_some, Option.getD_none, Nat.zero_add]

theorem scanSpanAtSpec_none_of_guard (orig repl : List String)
    (h : orig.length = 0 ∨ repl.length < 2) (start k : Nat) :
    scanSpanAtSpec orig repl start k = none := by
  rw [scanSpanAtSpec]
  rcases h with h | h
  · by_cases h1 : start + (k + 2) ≤ repl.length
    · rw [if_pos h1]
      by_cases h2 : ((repl.drop start).take (k + 2)).any fun l => jsTrim l = ""
      · rw [if_pos h2]
      · rw [if_neg h2]
        have ho : orig = [] := List.length_eq_zero.mp h
        subst ho
        rfl
    · rw [if_neg h1]
  · rw [if_neg (by omega)]

theorem filterMap_eq_nil_of {α β : Type} (f : α → Option β) (l : List α)
    (h : ∀ a ∈ l, f a = none) : l.filterMap f = [] := by
  induction l with
  | nil => rfl
  | cons a tl ih =>
    rw [List.filterMap_cons, h a (List.mem_cons_self a tl)]
    exact ih fun a2 h2 => h a2 (List.mem_cons_of_mem a h2)

theorem flatMap_eq_nil_of {α β : Type} (f : α → List β) (l : List α)
    (h : ∀ a ∈ l, f a = []) : l.flatMap f = [] := by
  induction l with
  | nil => rfl
  | cons a tl ih =>
    rw [List.flatMap_cons, h a (List.mem_cons_self a tl)]
    rw [List.nil_append]
    exact ih fun a2 h2 => h a2 (List.mem_cons_of_mem a h2)

theorem scanSpansSpec_nil_of_guard (orig repl : List String)
    (h : orig.length = 0 ∨ repl.length < 2) :
    scanSpansSpec orig repl = [] := by
  rw [scanSpansSpec]
  refine flatMap_eq_nil_of _ _ fun start _ => ?_
  exact filterMap_eq_nil_of _ _ fun k _ =>
    scanSpanAtSpec_none_of_guard orig repl h start k

/-- Claim C4 (amended): the stale-wrap restoration step replaces, working
from the last match backward, every contiguous span of 2 to 10 replacement
lines that FITS, CONTAINS NO BLANK LINE, whose whitespace-insensitive
concatenation (of AT LEAST 6 CHARACTERS) exactly matches exactly one
original line, and that is the unique candidate span yielding that
canonical form, by that single original line; ambiguous matches are skipped
and leave the replacement unchanged.  Formally, `restoreOldWrappedLines`
(translated with its two insertion-ordered maps) equals the splice-fold of
the declaratively characterized sole passing candidates, sorted by
descending start. -/
theorem restoreOldWrappedLines_spec (orig repl : List String) :
    restoreOldWrappedLines orig repl =
      (List.insertionSort candLE (solePassingCandidates orig repl)).foldl
        spliceCand repl := by
  rw [restoreOldWrappedLines]
  by_cases hg : orig.length = 0 ∨ repl.length < 2
  · rw [if_pos hg]
    rw [solePassingCandidates, scanSpansSpec_nil_of_guard orig repl hg]
    rfl
  · rw [if_neg hg]
    simp only [scanSpans_eq_spec, scanFold_split]
    have hpred : ∀ x ∈ (scanSpansSpec orig repl).foldl
        (fun m q => mapSet m q.1 q.2) [],
        ((mapGet ((scanSpansSpec orig repl).foldl bumpCount []) x.1).getD 0
          == 1) =
        ((scanSpansSpec orig repl).countP (fun q => q.1 == x.1) == 1) :=
      fun x _ => countGetD_eq (scanSpansSpec orig repl) x.1
    rw [List.filter_congr hpred]
    have hff := filter_foldl_mapSet
      (fun c => (scanSpansSpec orig repl).countP (fun q => q.1 == c) == 1)
      (scanSpansSpec orig repl) []
      (by
        intro k hk
        rw [beq_iff_eq] at hk
        constructor
        · omega
        · intro _
          rfl)
    rw [show ((scanSpansSpec orig repl).foldl
        (fun m q => mapSet m q.1 q.2) [] |>.filter fun e =>
        (scanSpansSpec orig repl).countP (fun q => q.1 == e.1) == 1) =
      (scanSpansSpec orig repl).filter (fun e =>
        (scanSpansSpec orig repl).countP (fun q => q.1 == e.1) == 1) from by
      rw [hff]
      rfl]
    rw [show ((scanSpansSpec orig repl).filter (fun e =>
        (scanSpansSpec orig repl).countP (fun q => q.1 == e.1) == 1)).map
        (fun e => e.2) = solePassingCandidates orig repl from rfl]
    by_cases hu : (solePassingCandidates orig repl).length = 0
    · rw [if_pos hu]
      rw [List.length_eq_zero.mp hu]
      rfl
    · rw [if_neg hu]

/-- Counterexample for C4 as stated: the span `["a", "bc"]` concatenates
(whitespace-insensitively) to `"abc"`, which matches exactly one original
line, that line is unique, and the span is the unique candidate — yet the
code skips it, because the canonical form is shorter than 6 characters, a
condition the claim omits. -/
theorem restoreOldWrappedLines_short_canonical_counterexample :
    restoreOldWrappedLines ["abc"] ["a", "bc"] = ["a", "bc"] ∧
    stripAllWhitespace (String.join ["a", "bc"]) = stripAllWhitespace "abc" ∧
    (["a", "bc"] : List String) ≠ ["abc"] :=
  ⟨by decide, by decide, by decide⟩


/-! ## C10 — frame effect: the apply functions never mutate their input

The TypeScript functions receive their `lines` array by reference and could
in principle mutate it; the claim is that each of the six builds a fresh
array (`[...lines]`, an array literal, or a spread concatenation) and
writes (`splice`) only into that fresh array.  To state this we give the
six functions a second, imperative translation over an explicit heap of
arrays, following the source statement by statement: `const result =
[...lines]` becomes an allocation of a copy, `result.splice(...)` a store
to the freshly allocated cell, and a `throw` leaves the heap as it stands
at that statement. -/

/-- A heap of string arrays; a reference is an index into the heap. -/
abbrev Heap : Type := List (List String)

/-- Dereference: read the array a reference points at. -/
def heapGet (h : Heap) (r : Nat) : List String :=
  List.getD h r []

/-- Store: overwrite the array a reference points at. -/
def heapSet (h : Heap) (r : Nat) (v : List String) : Heap :=
  List.set h r v

/-- Allocation: a fresh array gets the next unused reference. -/
def heapAlloc (h : Heap) (v : List String) : Heap × Nat :=
  (h ++ [v], List.length h)

theorem heapGet_append_lt (h : Heap) (v : List String) :
    ∀ i, i < List.length h → heapGet (h ++ [v]) i = heapGet h i := by
  induction h with
  | nil => intro i hi; exact absurd hi (Nat.not_lt_zero i)
  | cons a as ih =>
    intro i hi
    cases i with
    | zero => rfl
    | succ n => exact ih n (Nat.lt_of_succ_lt_succ hi)

theorem heapGet_append_self (h : Heap) (v : List String) :
    heapGet (h ++ [v]) (List.length h) = v := by
  induction h with
  | nil => rfl
  | cons a as ih => exact ih

theorem set_concat (h : Heap) (x v : List String) :
    List.set (h ++ [x]) (List.length h) v = h ++ [v] := by
  induction h with
  | nil => rfl
  | cons a as ih =>
    show a :: List.set (as ++ [x]) (List.length as) v = a :: (as ++ [v])
    rw [ih]

/-- The frame contract for one imperative call: every heap cell that existed
before the call reads exactly as it did before (so the input array — and
every other pre-existing array — is element-wise unchanged); on success the
returned reference is the one freshly allocated at the old heap frontier,
holding exactly the pure function's result; errors agree with the pure
function. -/
def FrameSpec (h : Heap) (out : Heap × Except String Nat)
    (pureRes : Except String (List String)) : Prop :=
  (∀ i, i < List.length h → heapGet out.1 i = heapGet h i) ∧
  (∀ r2, out.2 = Except.ok r2 →
    r2 = List.length h ∧ Except.ok (heapGet out.1 r2) = pureRes) ∧
  (∀ e, out.2 = Except.error e → pureRes = Except.error e)

theorem frameSpec_error (h : Heap) (e : String) :
    FrameSpec h (h, Except.error e) (Except.error e) := by
  refine ⟨fun _ _ => rfl, ?_, ?_⟩
  · intro r2 hr
    exact Except.noConfusion hr
  · intro e2 he
    injection he with he2
    rw [he2]

theorem frameSpec_error_alloc (h : Heap) (x : List String) (e : String) :
    FrameSpec h (h ++ [x], Except.error e) (Except.error e) := by
  refine ⟨heapGet_append_lt h x, ?_, ?_⟩
  · intro r2 hr
    exact Except.noConfusion hr
  · intro e2 he
    injection he with he2
    rw [he2]

theorem frameSpec_ok (h : Heap) (v : List String) :
    FrameSpec h (h ++ [v], Except.ok (List.length h)) (Except.ok v) := by
  refine ⟨heapGet_append_lt h v, ?_, ?_⟩
  · intro r2 hr
    injection hr with hr2
    subst hr2
    exact ⟨rfl, by rw [heapGet_append_self]⟩
  · intro e he
    exact Except.noConfusion he

/-- The allocate-copy-then-splice pattern shared by the four anchored
functions: allocate a copy of `x`, then overwrite the fresh cell with a
function of its contents. -/
theorem frameSpec_alloc_set (h : Heap) (x : List String)
    (f : List String → List String) :
    FrameSpec h
      (heapSet (heapAlloc h x).1 (heapAlloc h x).2
        (f (heapGet (heapAlloc h x).1 (heapAlloc h x).2)),
        Except.ok (heapAlloc h x).2)
      (Except.ok (f x)) := by
  show FrameSpec h
    (List.set (h ++ [x]) (List.length h) (f (heapGet (h ++ [x]) (List.length h))),
      Except.ok (List.length h))
    (Except.ok (f x))
  rw [heapGet_append_self, set_concat]
  exact frameSpec_ok h (f x)

/-- Imperative `applySetLine`: the input is the reference `r`; `const result
= [...lines]` allocates a fresh cell; `result.splice(line - 1, 1,
...replacement)` stores into that cell only. -/
def applySetLineImp (h : Heap) (r : Nat) (anchor : String)
    (newText : TextLines) (options : Option EditApplyOptions) :
    Heap × Except String Nat :=
  match (if shouldValidate options then validateLineRef (heapGet h r) anchor
    else .ok ()) with
  | .error e => (h, .error e)
  | .ok _ =>
    match parseLineRef anchor with
    | .error e => (h, .error e)
    | .ok pr =>
      let line := pr.line
      let h1 := (heapAlloc h (heapGet h r)).1
      let res := (heapAlloc h (heapGet h r)).2
      let originalLine := (heapGet h r).getD (line - 1) ""
      let corrected :=
        autocorrectReplacementLines [originalLine] (toNewLines newText)
      let replacement :=
        match corrected with
        | [] => []
        | c0 :: rest => restoreLeadingIndent originalLine c0 :: rest
      (heapSet h1 res ((heapGet h1 res).take (line - 1) ++ replacement ++
        (heapGet h1 res).drop (line - 1 + 1)), .ok res)

/-- Imperative `applyReplaceLines`: all throws happen before `const result =
[...lines]`; the splice stores into the fresh cell only. -/
def applyReplaceLinesImp (h : Heap) (r : Nat) (startAnchor endAnchor : String)
    (newText : TextLines) (options : Option EditApplyOptions) :
    Heap × Except String Nat :=
  match (if shouldValidate options then
    ((match validateLineRef (heapGet h r) startAnchor with
      | .error e => .error e
      | .ok _ => validateLineRef (heapGet h r) endAnchor) : Except String Unit)
    else .ok ()) with
  | .error e => (h, .error e)
  | .ok _ =>
    match parseLineRef startAnchor with
    | .error e => (h, .error e)
    | .ok rs =>
      match parseLineRef endAnchor with
      | .error e => (h, .error e)
      | .ok re =>
        let startLine := rs.line
        let endLine := re.line
        if endLine < startLine then
          (h, .error ("Invalid range: start line " ++ toString startLine ++
            " cannot be greater than end line " ++ toString endLine))
        else
          let h1 := (heapAlloc h (heapGet h r)).1
          let res := (heapAlloc h (heapGet h r)).2
          let originalRange :=
            ((heapGet h r).drop (startLine - 1)).take (endLine - (startLine - 1))
          let stripped := stripRangeBoundaryEcho (heapGet h r) startLine endLine
            (toNewLines newText)
          let corrected := autocorrectReplacementLines originalRange stripped
          let restored :=
            match corrected with
            | [] => []
            | c0 :: rest =>
              restoreLeadingIndent ((heapGet h r).getD (startLine - 1) "") c0 :: rest
          (heapSet h1 res ((heapGet h1 res).take (startLine - 1) ++ restored ++
            (heapGet h1 res).drop (startLine - 1 + (endLine - startLine + 1))),
            .ok res)

/-- Imperative `applyInsertAfter`: note the source allocates `result` before
the empty-text throw, so that error leaves a garbage copy on the heap — but
still never writes to a pre-existing cell. -/
def applyInsertAfterImp (h : Heap) (r : Nat) (anchor : String)
    (text : TextLines) (options : Option EditApplyOptions) :
    Heap × Except String Nat :=
  match (if shouldValidate options then validateLineRef (heapGet h r) anchor
    else .ok ()) with
  | .error e => (h, .error e)
  | .ok _ =>
    match parseLineRef anchor with
    | .error e => (h, .error e)
    | .ok pr =>
      let line := pr.line
      let h1 := (heapAlloc h (heapGet h r)).1
      let res := (heapAlloc h (heapGet h r)).2
      let newLines :=
        stripInsertAnchorEcho ((heapGet h r).getD (line - 1) "") (toNewLines text)
      if newLines.length = 0 then
        (h1, .error ("append (anchored) requires non-empty text for " ++ anchor))
      else
        (heapSet h1 res ((heapGet h1 res).take line ++ newLines ++
          (heapGet h1 res).drop line), .ok res)

/-- Imperative `applyInsertBefore`: same shape as `applyInsertAfterImp`. -/
def applyInsertBeforeImp (h : Heap) (r : Nat) (anchor : String)
    (text : TextLines) (options : Option EditApplyOptions) :
    Heap × Except String Nat :=
  match (if shouldValidate options then validateLineRef (heapGet h r) anchor
    else .ok ()) with
  | .error e => (h, .error e)
  | .ok _ =>
    match parseLineRef anchor with
    | .error e => (h, .error e)
    | .ok pr =>
      let line := pr.line
      let h1 := (heapAlloc h (heapGet h r)).1
      let res := (heapAlloc h (heapGet h r)).2
      let newLines :=
        stripInsertBeforeEcho ((heapGet h r).getD (line - 1) "") (toNewLines text)
      if newLines.length = 0 then
        (h1, .error ("prepend (anchored) requires non-empty text for " ++ anchor))
      else
        (heapSet h1 res ((heapGet h1 res).take (line - 1) ++ newLines ++
          (heapGet h1 res).drop (line - 1)), .ok res)

/-- Imperative `applyAppend`: no splice at all — both returns allocate a
fresh array literal (`[...normalized]` or `[...lines, ...normalized]`). -/
def applyAppendImp (h : Heap) (r : Nat) (text : TextLines) :
    Heap × Except String Nat :=
  let normalized := toNewLines text
  if normalized.length = 0 then
    (h, .error "append requires non-empty text")
  else if (heapGet h r).length = 1 ∧ (heapGet h r).getD 0 "" = "" then
    ((heapAlloc h normalized).1, .ok (heapAlloc h normalized).2)
  else
    ((heapAlloc h (heapGet h r ++ normalized)).1,
      .ok (heapAlloc h (heapGet h r ++ normalized)).2)

/-- Imperative `applyPrepend`: mirror image of `applyAppendImp`. -/
def applyPrependImp (h : Heap) (r : Nat) (text : TextLines) :
    Heap × Except String Nat :=
  let normalized := toNewLines text
  if normalized.length = 0 then
    (h, .error "prepend requires non-empty text")
  else if (heapGet h r).length = 1 ∧ (heapGet h r).getD 0 "" = "" then
    ((heapAlloc h normalized).1, .ok (heapAlloc h normalized).2)
  else
    ((heapAlloc h (normalized ++ heapGet h r)).1,
      .ok (heapAlloc h (normalized ++ heapGet h r)).2)

theorem frame_applySetLine (h : Heap) (r : Nat) (a : String) (t : TextLines)
    (o : Option EditApplyOptions) :
    FrameSpec h (applySetLineImp h r a t o)
      (applySetLine (heapGet h r) a t o) := by
  unfold applySetLineImp applySetLine
  cases hv : (if shouldValidate o then validateLineRef (heapGet h r) a
      else (Except.ok () : Except String Unit)) with
  | error e => exact frameSpec_error h e
  | ok u =>
    cases hp : parseLineRef a with
    | error e => exact frameSpec_error h e
    | ok pr =>
      exact frameSpec_alloc_set h (heapGet h r) (fun L =>
        L.take (pr.line - 1) ++
          (match autocorrectReplacementLines
              [(heapGet h r).getD (pr.line - 1) ""] (toNewLines t) with
            | [] => []
            | c0 :: rest =>
              restoreLeadingIndent ((heapGet h r).getD (pr.line - 1) "") c0
                :: rest) ++
          L.drop (pr.line - 1 + 1))

theorem frame_applyReplaceLines (h : Heap) (r : Nat) (a b : String)
    (t : TextLines) (o : Option EditApplyOptions) :
    FrameSpec h (applyReplaceLinesImp h r a b t o)
      (applyReplaceLines (heapGet h r) a b t o) := by
  unfold applyReplaceLinesImp applyReplaceLines
  cases hv : (if shouldValidate o then
      ((match validateLineRef (heapGet h r) a with
        | .error e => .error e
        | .ok _ => validateLineRef (heapGet h r) b) : Except String Unit)
      else (Except.ok () : Except String Unit)) with
  | error e => exact frameSpec_error h e
  | ok u =>
    cases hps : parseLineRef a with
    | error e => exact frameSpec_error h e
    | ok rs =>
      cases hpe : parseLineRef b with
      | error e => exact frameSpec_error h e
      | ok re =>
        dsimp only
        by_cases hlt : re.line < rs.line
        · simp only [if_pos hlt]
          exact frameSpec_error h _
        · simp only [if_neg hlt]
          exact frameSpec_alloc_set h (heapGet h r) (fun L =>
            L.take (rs.line - 1) ++
              (match autocorrectReplacementLines
                  (((heapGet h r).drop (rs.line - 1)).take
                    (re.line - (rs.line - 1)))
                  (stripRangeBoundaryEcho (heapGet h r) rs.line re.line
                    (toNewLines t)) with
                | [] => []
                | c0 :: rest =>
                  restoreLeadingIndent ((heapGet h r).getD (rs.line - 1) "") c0
                    :: rest) ++
              L.drop (rs.line - 1 + (re.line - rs.line + 1)))

theorem frame_applyInsertAfter (h : Heap) (r : Nat) (a : String)
    (t : TextLines) (o : Option EditApplyOptions) :
    FrameSpec h (applyInsertAfterImp h r a t o)
      (applyInsertAfter (heapGet h r) a t o) := by
  unfold applyInsertAfterImp applyInsertAfter
  cases hv : (if shouldValidate o then validateLineRef (heapGet h r) a
      else (Except.ok () : Except String Unit)) with
  | error e => exact frameSpec_error h e
  | ok u =>
    cases hp : parseLineRef a with
    | error e => exact frameSpec_error h e
    | ok pr =>
      dsimp only
      by_cases h0 : (stripInsertAnchorEcho ((heapGet h r).getD (pr.line - 1) "")
          (toNewLines t)).length = 0
      · simp only [if_pos h0]
        exact frameSpec_error_alloc h (heapGet h r) _
      · simp only [if_neg h0]
        exact frameSpec_alloc_set h (heapGet h r) (fun L =>
          L.take pr.line ++
            stripInsertAnchorEcho ((heapGet h r).getD (pr.line - 1) "")
              (toNewLines t) ++ L.drop pr.line)

theorem frame_applyInsertBefore (h : Heap) (r : Nat) (a : String)
    (t : TextLines) (o : Option EditApplyOptions) :
    FrameSpec h (applyInsertBeforeImp h r a t o)
      (applyInsertBefore (heapGet h r) a t o) := by
  unfold applyInsertBeforeImp applyInsertBefore
  cases hv : (if shouldValidate o then validateLineRef (heapGet h r) a
      else (Except.ok () : Except String Unit)) with
  | error e => exact frameSpec_error h e
  | ok u =>
    cases hp : parseLineRef a with
    | error e => exact frameSpec_error h e
    | ok pr =>
      dsimp only
      by_cases h0 : (stripInsertBeforeEcho ((heapGet h r).getD (pr.line - 1) "")
          (toNewLines t)).length = 0
      · simp only [if_pos h0]
        exact frameSpec_error_alloc h (heapGet h r) _
      · simp only [if_neg h0]
        exact frameSpec_alloc_set h (heapGet h r) (fun L =>
          L.take (pr.line - 1) ++
            stripInsertBeforeEcho ((heapGet h r).getD (pr.line - 1) "")
              (toNewLines t) ++ L.drop (pr.line - 1))

theorem frame_applyAppend (h : Heap) (r : Nat) (t : TextLines) :
    FrameSpec h (applyAppendImp h r t) (applyAppend (heapGet h r) t) := by
  unfold applyAppendImp applyAppend
  by_cases h0 : (toNewLines t).length = 0
  · simp only [if_pos h0]
    exact frameSpec_error h _
  · simp only [if_neg h0]
    by_cases hs : (heapGet h r).length = 1 ∧ (heapGet h r).getD 0 "" = ""
    · simp only [if_pos hs]
      exact frameSpec_ok h (toNewLines t)
    · simp only [if_neg hs]
      exact frameSpec_ok h (heapGet h r ++ toNewLines t)

theorem frame_applyPrepend (h : Heap) (r : Nat) (t : TextLines) :
    FrameSpec h (applyPrependImp h r t) (applyPrepend (heapGet h r) t) := by
  unfold applyPrependImp applyPrepend
  by_cases h0 : (toNewLines t).length = 0
  · simp only [if_pos h0]
    exact frameSpec_error h _
  · simp only [if_neg h0]
    by_cases hs : (heapGet h r).length = 1 ∧ (heapGet h r).getD 0 "" = ""
    · simp only [if_pos hs]
      exact frameSpec_ok h (toNewLines t)
    · simp only [if_neg hs]
      exact frameSpec_ok h (toNewLines t ++ heapGet h r)

/-- C10: none of `applySetLine`, `applyReplaceLines`, `applyInsertAfter`,
`applyInsertBefore`, `applyAppend`, `applyPrepend` mutates its input lines
array.  Over the explicit-heap translations of the six functions (one
statement per source statement: copy allocation, store into the copy,
throws where the source throws), every call satisfies the frame contract:
all pre-existing heap cells — in particular the input array `heapGet h r`
and any aliases of it — read unchanged afterwards; on success the returned
reference is freshly allocated (equal to the old heap size, hence distinct
from every pre-existing reference) and holds exactly the pure function's
result; errors agree with the pure functions. -/
theorem apply_functions_no_input_mutation (h : Heap) (r : Nat)
    (a b : String) (t : TextLines) (o : Option EditApplyOptions) :
    FrameSpec h (applySetLineImp h r a t o)
      (applySetLine (heapGet h r) a t o) ∧
    FrameSpec h (applyReplaceLinesImp h r a b t o)
      (applyReplaceLines (heapGet h r) a b t o) ∧
    FrameSpec h (applyInsertAfterImp h r a t o)
      (applyInsertAfter (heapGet h r) a t o) ∧
    FrameSpec h (applyInsertBeforeImp h r a t o)
      (applyInsertBefore (heapGet h r) a t o) ∧
    FrameSpec h (applyAppendImp h r t) (applyAppend (heapGet h r) t) ∧
    FrameSpec h (applyPrependImp h r t) (applyPrepend (heapGet h r) t) :=
  ⟨frame_applySetLine h r a t o, frame_applyReplaceLines h r a b t o,
    frame_applyInsertAfter h r a t o, frame_applyInsertBefore h r a t o,
    frame_applyAppend h r t, frame_applyPrepend h r t⟩

end Hashline
